import Mathlib

/-!
Shallow embedding of the transcript normalization and parsing pipeline of
`meeting_performance_analyzer.py` (class `MeetingPerformanceAnalyzer`).

Python strings are modelled as `List Char` (the `String` wrappers only convert
at the API boundary, so that concrete evaluations reduce in the kernel).
Python whitespace is modelled by the six ASCII whitespace characters; regular
expressions that appear in the source are translated into explicit
character-list matchers with the same matching semantics on the inputs the
code feeds them (single lines without embedded newlines, stripped strings).
-/

namespace MPA

/-- ASCII whitespace, modelling Python `str.strip` / regex `\s` on the
character set the analyzer processes. -/
def isPySpace (c : Char) : Bool :=
  c == ' ' || c == '\t' || c == '\n' || c == '\r' || c == '\x0b' || c == '\x0c'

/-- Drop trailing whitespace characters (right part of Python `str.strip`). -/
def dropTrail : List Char → List Char
  | [] => []
  | a :: rest =>
    match dropTrail rest with
    | [] => if isPySpace a then [] else [a]
    | r => a :: r

/-- Python `str.strip()` on char lists. -/
def stripL (l : List Char) : List Char :=
  dropTrail (l.dropWhile isPySpace)

/-- Python `str.strip()` on strings. -/
def pyStrip (s : String) : String := ⟨stripL s.data⟩

/-- Model of `re.sub(r'\s+', ' ', s)`: every maximal whitespace run becomes a
single space. -/
def collapseL : List Char → List Char
  | [] => []
  | [c] => if isPySpace c then [' '] else [c]
  | a :: b :: rest =>
    if isPySpace a && isPySpace b then collapseL (b :: rest)
    else (if isPySpace a then ' ' else a) :: collapseL (b :: rest)

/-- Python `s.split('\n')` on char lists. -/
def splitNl : List Char → List (List Char)
  | [] => [[]]
  | '\n' :: rest => [] :: splitNl rest
  | c :: rest =>
    match splitNl rest with
    | [] => [[c]]
    | x :: xs => (c :: x) :: xs

/-- Python `'\n'.join(lines)` on char lists. -/
def joinNl : List (List Char) → List Char
  | [] => []
  | [l] => l
  | l :: ls => l ++ '\n' :: joinNl ls

/-- Python `s.replace('\r\n', '\n')`: leftmost, non-overlapping. -/
def replCrlf : List Char → List Char
  | [] => []
  | [c] => [c]
  | c :: d :: rest =>
    if c = '\r' ∧ d = '\n' then '\n' :: replCrlf rest
    else c :: replCrlf (d :: rest)

/-- Line-ending normalization of the analyzer:
`content.replace('\r\n', '\n').replace('\r', '\n')`. -/
def crlfNormL (l : List Char) : List Char :=
  (replCrlf l).map (fun c => if c == '\r' then '\n' else c)

/-- Case-insensitive character comparison (ASCII folding, modelling
`re.IGNORECASE` on the pattern alphabet the analyzer uses). -/
def eqCI (a b : Char) : Bool := a.toLower == b.toLower

/-- Consume a literal word case-insensitively; return the rest on success. -/
def matchLitCI : List Char → List Char → Option (List Char)
  | [], l => some l
  | _ :: _, [] => none
  | w :: ws, c :: cs => if eqCI w c then matchLitCI ws cs else none

/-- Token of a translated regular-expression pattern: a literal word or a
`\s+` whitespace run. -/
inductive Tok where
  | lit (w : List Char)
  | ws
deriving DecidableEq

/-- Match a token sequence at the head of the input (each `\s+` is consumed
maximally; every `\s+` in the source patterns is followed by a literal that
starts with a non-space character, so maximal munch is exact). -/
def matchToks : List Tok → List Char → Option (List Char)
  | [], l => some l
  | .lit w :: rest, l => (matchLitCI w l).bind (matchToks rest)
  | .ws :: rest, l =>
    let r := l.dropWhile isPySpace
    if r.length == l.length then none else matchToks rest r

/-- Anchored-start pattern (`re.search(r'^...', s)`). -/
def startPat (toks : List Tok) (l : List Char) : Bool :=
  (matchToks toks l).isSome

/-- Fully anchored pattern (`re.search(r'^...$', s)` on a stripped string). -/
def fullPat (toks : List Tok) (l : List Char) : Bool :=
  matchToks toks l == some []

/-- Unanchored pattern (`re.search(r'...', s)`): a match at some position. -/
def anyPat (toks : List Tok) : List Char → Bool
  | [] => startPat toks []
  | c :: rest => startPat toks (c :: rest) || anyPat toks rest

/-- End-anchored pattern (`re.search(r'...$', s)` on a stripped string). -/
def anyEndPat (toks : List Tok) : List Char → Bool
  | [] => fullPat toks []
  | c :: rest => fullPat toks (c :: rest) || anyEndPat toks rest

/-- Consume exactly `n` ASCII digits. -/
def digitN : Nat → List Char → Option (List Char)
  | 0, l => some l
  | _ + 1, [] => none
  | n + 1, c :: cs => if c.isDigit then digitN n cs else none

/-- Numeric value of a digit list (most significant first). -/
def digitsVal (l : List Char) : Nat :=
  l.foldl (fun a c => a * 10 + (c.toNat - 48)) 0

/-- Pattern `^\d{2}:\d{2}:\d{2}$` (full match). -/
def tsFull3 (l : List Char) : Bool :=
  match digitN 2 l with
  | some (':' :: r1) =>
    match digitN 2 r1 with
    | some (':' :: r2) => digitN 2 r2 == some []
    | _ => false
  | _ => false

/-- Pattern `^\d{2}:\d{2}$` (full match). -/
def tsFull2 (l : List Char) : Bool :=
  match digitN 2 l with
  | some (':' :: r1) => digitN 2 r1 == some []
  | _ => false

/-- Nonempty all-digit string (`^\d+$`). -/
def allDigits1 (l : List Char) : Bool :=
  !l.isEmpty && l.all Char.isDigit

/-- Pattern `^\d{4}년` of the validator. -/
def startsYear4 (l : List Char) : Bool :=
  match digitN 4 l with
  | some r => (matchLitCI "년".data r).isSome
  | none => false

/-- The apostrophe character. -/
def apos : Char := Char.ofNat 39

/-- Translation of the `invalid_patterns` list of
`MeetingPerformanceAnalyzer._is_valid_participant`, applied with
`re.search(..., re.IGNORECASE)` to the stripped speaker. -/
def invalidAny (s : List Char) : Bool :=
  startPat [.lit "transcription".data, .ws, .lit "ended".data] s ||
  startPat [.lit "transcription".data, .ws, .lit "ended".data, .ws, .lit "after".data] s ||
  startPat [.lit "session".data, .ws, .lit "ended".data] s ||
  startPat [.lit "session".data, .ws, .lit "ended".data, .ws, .lit "after".data] s ||
  anyPat [.lit "meeting".data, .ws, .lit "ended".data, .ws, .lit "after".data] s ||
  startPat [.lit "this".data, .ws, .lit "editable".data, .ws, .lit "transcript".data] s ||
  startPat [.lit "you".data, .ws, .lit "should".data, .ws, .lit "review".data] s ||
  startPat [.lit "please".data, .ws, .lit "provide".data, .ws, .lit "feedback".data] s ||
  startPat [.lit "get".data, .ws, .lit "tips".data] s ||
  startPat [.lit "*".data] s ||
  startPat [.lit "ooo".data] s ||
  startPat [.lit "첨부파일".data] s ||
  startPat [.lit "초대됨".data] s ||
  startPat [.lit "gemini가".data] s ||
  startPat [.lit "수정 가능한".data] s ||
  startsYear4 s ||
  tsFull3 s ||
  tsFull2 s ||
  startPat [.lit "후 스크립트".data] s ||
  allDigits1 s ||
  startPat [.lit "attachments".data] s ||
  fullPat [.lit "project".data, .ws, .lit "trh".data] s ||
  anyEndPat [.lit [apos, 's'], .ws, .lit "presentation".data] s ||
  anyEndPat [.lit "님의".data, .ws, .lit "발표".data] s ||
  (match s with
   | '﻿' :: _ => true
   | _ => false)

/-- Translation of `MeetingPerformanceAnalyzer._is_valid_participant`. -/
def isValidParticipantL (speaker : List Char) : Bool :=
  let s := stripL speaker
  if s.isEmpty then false
  else
    let s :=
      match s with
      | '﻿' :: rest => stripL rest
      | _ => s
    if s.isEmpty then false
    else !invalidAny s

/-- String-level `_is_valid_participant`. -/
def isValidParticipant (speaker : String) : Bool :=
  isValidParticipantL speaker.data

/-- The static alias table of `_normalize_participant_name`. -/
def nameMapping (n : List Char) : Option (List Char) :=
  if n = "Nam".data then some "Nam Pham".data
  else if n = "Nam Phạm Tiến".data then some "Nam Pham".data
  else if n = "Nam Tiến".data then some "Nam Pham".data
  else if n = "Nakamura Chiko".data then some "Chiko Nakamura".data
  else if n = "Geonwoo Shin".data then some "Thomas Shin".data
  else none

/-- Translation of `re.match(r'^([^\[\]]+)\[.*?\]$', name)`: succeeds when the
name has a nonempty bracket-free head, its first bracket character is `[`, it
ends with `]`, and the bracket content contains no newline (`.` does not match
newlines); the returned group is the bracket-free head `brkHead`. -/
def brkHead (l : List Char) : List Char :=
  l.takeWhile (fun c => c != '[' && c != ']')

def brkSplit (l : List Char) : Option (List Char) :=
  match l.drop (brkHead l).length with
  | '[' :: tail =>
    if (brkHead l).isEmpty then none
    else
      match tail.reverse with
      | ']' :: revContent => if '\n' ∈ revContent then none else some (brkHead l)
      | _ => none
  | _ => none

/-- Core of `_normalize_participant_name`, applied to the stripped name. -/
def normCore (n : List Char) : List Char :=
  match nameMapping n with
  | some c => c
  | none =>
    match brkSplit n with
    | some g =>
      let g := stripL g
      (nameMapping g).getD g
    | none =>
      let m := stripL (collapseL n)
      (nameMapping m).getD m

/-- Translation of `MeetingPerformanceAnalyzer._normalize_participant_name`
on char lists. -/
def normalizePNL (name : List Char) : List Char :=
  if name.isEmpty then name else normCore (stripL name)

/-- String-level `_normalize_participant_name`. -/
def normalizeParticipantName (name : String) : String :=
  ⟨normalizePNL name.data⟩

/-! Transcript parser (`MeetingPerformanceAnalyzer.parse_transcript`). -/

/-- One parsed utterance record
`{"timestamp": ..., "speaker": ..., "text": ...}`. -/
structure Utt where
  timestamp : String
  speaker : String
  text : String
deriving DecidableEq, Repr

/-- Consume `\d{2}:\d{2}:\d{2}` at the head; return the timestamp group and
the rest. -/
def parseTs3 (l : List Char) : Option (List Char × List Char) :=
  match l with
  | a :: b :: ':' :: c :: d :: ':' :: e :: f :: rest =>
    if a.isDigit && b.isDigit && c.isDigit && d.isDigit && e.isDigit && f.isDigit then
      some ([a, b, ':', c, d, ':', e, f], rest)
    else none
  | _ => none

/-- Consume `\d{2}:\d{2}` at the head; return the timestamp group and the
rest. -/
def parseTs2 (l : List Char) : Option (List Char × List Char) :=
  match l with
  | a :: b :: ':' :: c :: d :: rest =>
    if a.isDigit && b.isDigit && c.isDigit && d.isDigit then
      some ([a, b, ':', c, d], rest)
    else none
  | _ => none

/-- The standalone-timestamp pattern
`^(\d{2}:\d{2}:\d{2})$|^(\d{2}:\d{2})$`. -/
def tsFullB (l : List Char) : Bool :=
  tsFull3 l || tsFull2 l

/-- The check `re.match(r'^\d{2}:\d{2}(:\d{2})?$', speaker)` of line format 4. -/
def tsShapedB (l : List Char) : Bool :=
  match parseTs2 l with
  | some (_, rest) =>
    match rest with
    | [] => true
    | ':' :: r2 => digitN 2 r2 == some []
    | _ => false
  | none => false

/-- Translation of `\s*([^:]+):` after a leading bracketed timestamp: the
greedy `\s*` eats leading spaces but backtracks so that `[^\[\]]`—rather,
`[^:]+`—keeps at least one character; returns the speaker group and the rest
after the colon. -/
def wsSpeakerColon (l : List Char) : Option (List Char × List Char) :=
  let pre := l.takeWhile (fun c => c != ':')
  if pre.isEmpty then none
  else
    match l.drop pre.length with
    | ':' :: rest =>
      let sp := (pre.takeWhile isPySpace).length
      some (pre.drop (min sp (pre.length - 1)), rest)
    | _ => none

/-- Translation of `\s+([^:]+):` in the unbracketed single-line formats: at
least one whitespace character must be consumed. -/
def ws1SpeakerColon (l : List Char) : Option (List Char × List Char) :=
  let pre := l.takeWhile (fun c => c != ':')
  match pre with
  | c :: _ =>
    if isPySpace c then
      let k := min (pre.takeWhile isPySpace).length (pre.length - 1)
      if 1 ≤ k then
        match l.drop pre.length with
        | ':' :: rest => some (pre.drop k, rest)
        | _ => none
      else none
    else none
  | [] => none

/-- Translation of the trailing `\s*(.+)` of the line grammars: the rest must
be nonempty; the greedy `\s*` backtracks so that `(.+)` gets at least one
character, hence on an all-whitespace rest the text group is its last
character. -/
def wsStarPlus (rest : List Char) : Option (List Char) :=
  match rest with
  | [] => none
  | _ =>
    let r := rest.dropWhile isPySpace
    if r.isEmpty then
      match rest.reverse with
      | c :: _ => some [c]
      | [] => none
    else some r

/-- Single-line format 1: `\[(\d{2}:\d{2}:\d{2})\]\s*([^:]+):\s*(.+)`. -/
def matchP1 (l : List Char) : Option (List Char × List Char × List Char) :=
  match l with
  | '[' :: r0 =>
    match parseTs3 r0 with
    | some (ts, ']' :: r1) =>
      match wsSpeakerColon r1 with
      | some (sp, r2) => (wsStarPlus r2).map (fun tx => (ts, sp, tx))
      | none => none
    | _ => none
  | _ => none

/-- Single-line format 2: `\[(\d{2}:\d{2})\]\s*([^:]+):\s*(.+)`. -/
def matchP2 (l : List Char) : Option (List Char × List Char × List Char) :=
  match l with
  | '[' :: r0 =>
    match parseTs2 r0 with
    | some (ts, ']' :: r1) =>
      match wsSpeakerColon r1 with
      | some (sp, r2) => (wsStarPlus r2).map (fun tx => (ts, sp, tx))
      | none => none
    | _ => none
  | _ => none

/-- Single-line format 3: `^(\d{2}:\d{2}:\d{2})\s+([^:]+):\s*(.+)`. -/
def matchP3 (l : List Char) : Option (List Char × List Char × List Char) :=
  match parseTs3 l with
  | some (ts, r1) =>
    match ws1SpeakerColon r1 with
    | some (sp, r2) => (wsStarPlus r2).map (fun tx => (ts, sp, tx))
    | none => none
  | none => none

/-- Single-line format 4: `^(\d{2}:\d{2})\s+([^:]+):\s*(.+)`. -/
def matchP4 (l : List Char) : Option (List Char × List Char × List Char) :=
  match parseTs2 l with
  | some (ts, r1) =>
    match ws1SpeakerColon r1 with
    | some (sp, r2) => (wsStarPlus r2).map (fun tx => (ts, sp, tx))
    | none => none
  | none => none

/-- The `patterns_single_line` loop: the four patterns tried in order. -/
def matchSingleLine (l : List Char) : Option (List Char × List Char × List Char) :=
  (matchP1 l).orElse (fun _ => (matchP2 l).orElse (fun _ =>
    (matchP3 l).orElse (fun _ => matchP4 l)))

/-- The bare-speaker pattern `^([^:]+):\s*(.+)`. -/
def spMatch (l : List Char) : Option (List Char × List Char) :=
  let pre := l.takeWhile (fun c => c != ':')
  if pre.isEmpty then none
  else
    match l.drop pre.length with
    | ':' :: rest => (wsStarPlus rest).map (fun tx => (pre, tx))
    | _ => none

/-- The continuation-stopper `re.match(r'^[^:]+:\s*', next_line)`. -/
def spStopB (l : List Char) : Bool :=
  let pre := l.takeWhile (fun c => c != ':')
  if pre.isEmpty then false
  else
    match l.drop pre.length with
    | ':' :: _ => true
    | _ => false

/-- Number of leading lines skipped by the blank-skipping loop of line
format 3 (`not lines[i].strip() or lines[i].strip() == ' '`). -/
def skipBlankCnt : List (List Char) → Nat
  | [] => 0
  | l :: rest =>
    let s := stripL l
    if s.isEmpty || s == [' '] then 1 + skipBlankCnt rest else 0

/-- Continuation absorption of line format 3: append following lines to the
text until a blank line, a standalone timestamp, or a new `speaker:` line;
returns the number of absorbed lines and the accumulated text. -/
def absorbCnt : List (List Char) → List Char → Nat × List Char
  | [], text => (0, text)
  | l :: rest, text =>
    let nl := stripL l
    if tsFullB nl || spStopB nl then (0, text)
    else if nl.isEmpty then (0, text)
    else
      let r := absorbCnt rest (text ++ ' ' :: nl)
      (r.1 + 1, r.2)

/-- Append `' ' + text` to the text of the last utterance
(`parsed_lines[-1]['text'] += ' ' + text`). -/
def updLastText (acc : List Utt) (tx : List Char) : List Utt :=
  match acc with
  | [] => []
  | [u] => [{ u with text := ⟨u.text.data ++ ' ' :: tx⟩ }]
  | u :: rest => u :: updLastText rest tx

/-- The bare `speaker: text` branch (format 4) of the parser loop, entered
with the cursor at `i`; returns the next cursor and the updated output. -/
def format4 (line : List Char) (i : Nat) (acc : List Utt) : Nat × List Utt :=
  match spMatch line with
  | none => (i + 1, acc)
  | some (sp, tx) =>
    let sp := stripL sp
    let tx := stripL tx
    if tsShapedB sp then (i + 1, acc)
    else if !isValidParticipantL sp then (i + 1, acc)
    else
      let ns := normalizePNL sp
      match acc.getLast? with
      | some last =>
        if last.speaker = (⟨ns⟩ : String) then (i + 1, updLastText acc tx)
        else (i + 1, acc ++ [⟨last.timestamp, ⟨ns⟩, ⟨stripL tx⟩⟩])
      | none => (i + 1, acc ++ [⟨"00:00:00", ⟨ns⟩, ⟨stripL tx⟩⟩])

/-- One iteration of the `while i < len(lines)` loop of `parse_transcript`,
from the loop test to the next loop test: returns the new cursor and the new
output list. -/
def parseStep (lines : List (List Char)) (i : Nat) (acc : List Utt) :
    Nat × List Utt :=
  let line := stripL (lines.getD i [])
  if line.isEmpty then (i + 1, acc)
  else
    match matchSingleLine line with
    | some (ts, sp, tx) =>
      let sp := stripL sp
      if isValidParticipantL sp then
        (i + 1, acc ++ [⟨⟨stripL ts⟩, ⟨normalizePNL sp⟩, ⟨stripL tx⟩⟩])
      else (i + 1, acc)
    | none =>
      if tsFullB line then
        let j := (i + 1) + skipBlankCnt (lines.drop (i + 1))
        if j < lines.length then
          match spMatch (stripL (lines.getD j [])) with
          | some (sp, tx) =>
            let sp := stripL sp
            let tx := stripL tx
            if !isValidParticipantL sp then (j + 1, acc)
            else
              let ns := normalizePNL sp
              let r := absorbCnt (lines.drop (j + 1)) tx
              (j + 1 + r.1, acc ++ [⟨⟨stripL line⟩, ⟨stripL ns⟩, ⟨stripL r.2⟩⟩])
          | none => format4 line j acc
        else format4 line j acc
      else format4 line i acc

/-- The parser loop, with explicit fuel; `none` models fuel exhaustion,
shown unreachable below for the fuel that `parse_transcript` supplies. -/
def parseGo (lines : List (List Char)) : Nat → Nat → List Utt → Option (List Utt)
  | 0, i, acc => if i < lines.length then none else some acc
  | fuel + 1, i, acc =>
    if i < lines.length then
      let s := parseStep lines i acc
      parseGo lines fuel s.1 s.2
    else some acc

/-- Runner for `parse_transcript`: split into lines and run the loop with
fuel equal to the number of lines. -/
def parseTranscriptRun (t : String) : Option (List Utt) :=
  let lines := splitNl t.data
  parseGo lines lines.length 0 []

/-- Translation of `MeetingPerformanceAnalyzer.parse_transcript`. -/
def parse_transcript (t : String) : List Utt :=
  (parseTranscriptRun t).getD []

/-! Transcript-section extraction
(`MeetingPerformanceAnalyzer._extract_transcript_section`). -/

/-- A transcript marker: an optional `📖\s*` head followed by a
case-insensitive literal word. -/
structure Marker where
  emoji : Bool
  word : List Char

/-- The five markers of `_extract_transcript_section`, in priority order. -/
def transcriptMarkers : List Marker :=
  [⟨true, "스크립트".data⟩, ⟨true, "Transcript".data⟩,
   ⟨false, "스크립트".data⟩, ⟨false, "Transcript".data⟩,
   ⟨false, "TRANSCRIPT".data⟩]

/-- Does the marker match starting at the head of `l`? -/
def markerAt (m : Marker) (l : List Char) : Bool :=
  if m.emoji then
    match l with
    | '📖' :: r => (matchLitCI m.word (r.dropWhile isPySpace)).isSome
    | _ => false
  else (matchLitCI m.word l).isSome

/-- Index of the leftmost match of the marker (`re.search`), if any. -/
def markerIdx (m : Marker) : List Char → Option Nat
  | [] => if markerAt m [] then some 0 else none
  | c :: rest =>
    if markerAt m (c :: rest) then some 0
    else (markerIdx m rest).map (· + 1)

/-- Helper for the date patterns: `\s+\d{4}` as a prefix. -/
def wsDigits4 (l : List Char) : Bool :=
  let r := l.dropWhile isPySpace
  decide (r.length < l.length) && (digitN 4 r).isSome

/-- English date line `[A-Z][a-z]{2}\s+\d{1,2},\s+\d{4}` (prefix match). -/
def isEngDate (l : List Char) : Bool :=
  match l with
  | c0 :: c1 :: c2 :: r =>
    ('A' ≤ c0 && c0 ≤ 'Z') && ('a' ≤ c1 && c1 ≤ 'z') && ('a' ≤ c2 && c2 ≤ 'z') &&
    (let r1 := r.dropWhile isPySpace
     decide (r1.length < r.length) &&
     (match r1 with
      | d0 :: ',' :: r2 => d0.isDigit && wsDigits4 r2
      | d0 :: d1 :: ',' :: r2 => d0.isDigit && d1.isDigit && wsDigits4 r2
      | _ => false))
  | _ => false

/-- One-or-two digits followed by a literal character, as a prefix; returns
the rest. -/
def d12Lit (ch : Char) (l : List Char) : Option (List Char) :=
  match l with
  | d0 :: c :: r =>
    if d0.isDigit && (c == ch) then some r
    else match l with
      | d0 :: d1 :: c :: r =>
        if d0.isDigit && d1.isDigit && (c == ch) then some r else none
      | _ => none
  | _ => none

/-- Korean date line `\d{4}년\s+\d{1,2}월\s+\d{1,2}일` (prefix match). -/
def isKorDate (l : List Char) : Bool :=
  match digitN 4 l with
  | some ('년' :: r0) =>
    let r1 := r0.dropWhile isPySpace
    decide (r1.length < r0.length) &&
    (match d12Lit '월' r1 with
     | some r2 =>
       let r3 := r2.dropWhile isPySpace
       decide (r3.length < r2.length) && (d12Lit '일' r3).isSome
     | none => false)
  | _ => false

/-- Case-sensitive substring test (Python `needle in haystack`). -/
def containsSub (needle : List Char) : List Char → Bool
  | [] => needle.isPrefixOf []
  | c :: t => needle.isPrefixOf (c :: t) || containsSub needle t

/-- The per-marker body of `_extract_transcript_section`: take the content
from the leftmost marker match, then skip the marker line, an optional date
line, and an optional `" - Transcript"` title line. -/
def extractWithMarker (m : Marker) (content : List Char) : Option (List Char) :=
  match markerIdx m content with
  | none => none
  | some k =>
    let sec := content.drop k
    let lines := splitNl sec
    match lines.findIdx? (fun l => (markerIdx m l).isSome) with
    | none => some (stripL (joinNl lines))
    | some i =>
      let s1 := i + 1
      let s2 :=
        if h : s1 < lines.length then
          let nl := stripL (lines.get ⟨s1, h⟩)
          if isEngDate nl || isKorDate nl then i + 2 else s1
        else s1
      let s3 :=
        if h : s2 < lines.length then
          let tl := lines.get ⟨s2, h⟩
          if containsSub " - Transcript".data tl || containsSub " - 스크립트".data tl
          then s2 + 1 else s2
        else s2
      some (stripL (joinNl (lines.drop s3)))

/-- The marker loop of `_extract_transcript_section`. -/
def extractLoop : List Marker → List Char → List Char
  | [], content => content
  | m :: ms, content =>
    match extractWithMarker m content with
    | some r => r
    | none => extractLoop ms content

/-- Translation of `MeetingPerformanceAnalyzer._extract_transcript_section`
on char lists (line endings normalized first). -/
def extractTranscriptSectionL (content : List Char) : List Char :=
  extractLoop transcriptMarkers (crlfNormL content)

/-- String-level `_extract_transcript_section`. -/
def extractTranscriptSection (content : String) : String :=
  ⟨extractTranscriptSectionL content.data⟩

/-- Does the (line-ending-normalized) content contain any transcript marker? -/
def hasMarker (content : List Char) : Bool :=
  transcriptMarkers.any (fun m => (markerIdx m content).isSome)

/-! Document normalization (`MeetingPerformanceAnalyzer._normalize_document`).
Python `datetime` values are modelled naively by their six fields plus an
optional UTC-offset in minutes (`None` = naive datetime). -/

/-- Model of a Python `datetime` value. -/
structure PyDateTime where
  year : Nat
  month : Nat
  day : Nat
  hour : Nat
  minute : Nat
  second : Nat
  tzOffsetMinutes : Option Int
deriving DecidableEq, Repr

/-- Model of `datetime.min`. -/
def pyDatetimeMin : PyDateTime := ⟨1, 1, 1, 0, 0, 0, none⟩

/-- Tail parser for `pyFromIso` after the year digits. -/
def pyFromIsoTail (y : Nat) (l : List Char) : Option PyDateTime :=
  match l with
  | '-' :: m1 :: m2 :: '-' :: d1 :: d2 :: 'T' :: h1 :: h2 :: ':' :: i1 :: i2 :: ':' :: s1 :: s2 :: rest =>
    if m1.isDigit && m2.isDigit && d1.isDigit && d2.isDigit && h1.isDigit && h2.isDigit &&
       i1.isDigit && i2.isDigit && s1.isDigit && s2.isDigit then
      let mo := digitsVal [m1, m2]
      let dy := digitsVal [d1, d2]
      let hh := digitsVal [h1, h2]
      let mi := digitsVal [i1, i2]
      let ss := digitsVal [s1, s2]
      if 1 ≤ mo && mo ≤ 12 && 1 ≤ dy && dy ≤ 31 && hh ≤ 23 && mi ≤ 59 && ss ≤ 59 then
        match rest with
        | [] => some ⟨y, mo, dy, hh, mi, ss, none⟩
        | sgn :: o1 :: o2 :: ':' :: o3 :: o4 :: [] =>
          if (sgn == '+' || sgn == '-') && o1.isDigit && o2.isDigit && o3.isDigit && o4.isDigit then
            let off : Int := (digitsVal [o1, o2]) * 60 + digitsVal [o3, o4]
            some ⟨y, mo, dy, hh, mi, ss, some (if sgn == '-' then -off else off)⟩
          else none
        | _ => none
      else none
    else none
  | _ => none

/-- Model of `datetime.fromisoformat` on the shapes produced by the
`createdTime` preprocessing: `YYYY-MM-DDTHH:MM:SS` with an optional
`+HH:MM`/`-HH:MM` offset; anything else fails (which the caller turns into
the `datetime.now()` fallback). -/
def pyFromIso (l : List Char) : Option PyDateTime :=
  match digitN 4 l with
  | some r => pyFromIsoTail (digitsVal (l.take 4)) r
  | none => none

/-- The `createdTime` string preprocessing of `_normalize_document`:
normalize a trailing `Z`, excise a fractional-seconds component, re-normalize
a trailing `Z`, then parse. -/
def parseCreatedTime (s : List Char) : Option PyDateTime :=
  let t :=
    match s.reverse with
    | 'Z' :: r => r.reverse ++ "+00:00".data
    | _ => s
  let t :=
    if '.' ∈ t then
      let pre := t.takeWhile (fun c => c != '.')
      let tzTail := (t.drop pre.length).dropWhile
        (fun c => !(c == '+' || c == '-' || c == 'Z'))
      let u := pre ++ tzTail
      match u.reverse with
      | 'Z' :: r => r.reverse ++ "+00:00".data
      | _ => u
    else t
  pyFromIso t

/-- A `createdTime` field value: a string or a datetime. -/
inductive CreatedTime where
  | ctStr (s : String)
  | ctDt (d : PyDateTime)
deriving DecidableEq, Repr

/-- Model of a MongoDB document as seen by `_normalize_document`: each field
is `none` when the key is absent; string-valued keys may hold Python `None`
(the inner `none`). -/
structure PyDoc where
  title : Option (Option String) := none
  name : Option (Option String) := none
  transcript : Option (Option String) := none
  content : Option (Option String) := none
  date : Option (Option PyDateTime) := none
  createdTime : Option CreatedTime := none
  participants : Option (List String) := none
deriving DecidableEq, Repr

/-- Python truthiness of an optional string value. -/
def truthyV : Option String → Bool
  | none => false
  | some s => !s.isEmpty

/-- Lexicographic code-point order on strings (Python `<` on `str`),
strict part. -/
def strLtB : List Char → List Char → Bool
  | [], [] => false
  | [], _ :: _ => true
  | _ :: _, [] => false
  | a :: as, b :: bs =>
    if a.toNat < b.toNat then true
    else if b.toNat < a.toNat then false
    else strLtB as bs

/-- String order used by Python `sorted` on names. -/
def strLeP (a b : String) : Prop := strLtB b.data a.data = false

instance : DecidableRel strLeP := fun a b => by
  unfold strLeP; infer_instance

/-- Translation of
`MeetingPerformanceAnalyzer._extract_participants_from_transcript`:
parse, collect stripped valid speakers, deduplicate, sort. -/
def extractParticipantsFromTranscript (tr : String) : List String :=
  let parsed := parse_transcript tr
  let speakers := parsed.map (fun u => pyStrip u.speaker)
  let good := speakers.filter (fun s => !s.isEmpty && isValidParticipant s)
  List.insertionSort strLeP good.eraseDups

/-- The transcript value recomputed by `_normalize_document` when the field
is missing or falsy: extract from `content` when that is truthy, else the
empty string. -/
def tFromContent (c : Option (Option String)) : String :=
  match c with
  | some (some s) => if s.isEmpty then "" else extractTranscriptSection s
  | _ => ""

/-- The `title` step of `_normalize_document`. -/
def stepTitle (d : PyDoc) : PyDoc :=
  if d.title = none then
    { d with title := some (match d.name with
              | some v => v
              | none => some "Untitled Meeting") }
  else d

/-- The `transcript` step of `_normalize_document`. -/
def stepTranscript (d : PyDoc) : PyDoc :=
  if d.transcript = none || !truthyV (d.transcript.getD none) then
    { d with transcript := some (some (tFromContent d.content)) }
  else d

/-- The date produced from `createdTime` when the `date` key is missing or
null: `none` when `createdTime` is absent or falsy, otherwise the parsed
value with the `datetime.now()` fallback on parse failure. -/
def dateFromCT (now : PyDateTime) : Option CreatedTime → Option PyDateTime
  | some (.ctStr s) =>
    if s.isEmpty then none
    else some ((parseCreatedTime s.data).getD now)
  | some (.ctDt t) => some t
  | none => none

/-- The `date` step of `_normalize_document`. -/
def stepDate (now : PyDateTime) (d : PyDoc) : PyDoc :=
  if d.date = none || d.date = some none then
    match dateFromCT now d.createdTime with
    | some t => { d with date := some (some t) }
    | none => d
  else d

/-- The `participants` step of `_normalize_document`. -/
def stepParticipants (d : PyDoc) : PyDoc :=
  if d.participants = none || d.participants = some [] then
    let tr := match d.transcript with
      | some (some s) => s
      | _ => ""
    if tr.isEmpty then d
    else
      let ps := extractParticipantsFromTranscript tr
      if ps.isEmpty then d else { d with participants := some ps }
  else d

/-- Translation of `MeetingPerformanceAnalyzer._normalize_document`;
`now` stands for the `datetime.now()` of the parse-failure fallback. -/
def normalizeDocument (now : PyDateTime) (doc : PyDoc) : PyDoc :=
  if doc.title.isSome && doc.transcript.isSome && truthyV (doc.transcript.getD none)
  then doc
  else stepParticipants (stepDate now (stepTranscript (stepTitle doc)))

/-! Multi-meeting aggregation ordering (`analyze_aggregated_meetings`):
`sorted_meetings = sorted(meetings, key=lambda x: x.get('date', datetime.min))`.
Python `sorted` is a stable sort; it is modelled by the stable
`List.insertionSort` under the same key, with naive-datetime comparison. -/

/-- The six comparison fields of a naive datetime, most significant first. -/
def dtFields (a : PyDateTime) : List Nat :=
  [a.year, a.month, a.day, a.hour, a.minute, a.second]

/-- Lexicographic comparison of equal-length natural-number lists. -/
def natListLe : List Nat → List Nat → Bool
  | [], _ => true
  | _ :: _, [] => false
  | x :: xs, y :: ys =>
    if x < y then true else if y < x then false else natListLe xs ys

/-- Naive-datetime comparison (`datetime.__le__` on two naive values):
lexicographic on the six fields. -/
def pyDtLeB (a b : PyDateTime) : Bool :=
  natListLe (dtFields a) (dtFields b)

/-- The sort key `x.get('date', datetime.min)` (for documents whose `date`
key, when present, holds a datetime). -/
def sortKeyD (d : PyDoc) : PyDateTime :=
  match d.date with
  | some (some t) => t
  | _ => pyDatetimeMin

/-- The document order used by the aggregation sort. -/
def aggLe (a b : PyDoc) : Prop := pyDtLeB (sortKeyD a) (sortKeyD b) = true

instance : DecidableRel aggLe := fun a b => by
  unfold aggLe; infer_instance

/-- Processing order of `analyze_aggregated_meetings`: the input documents
stably sorted by date, missing dates keyed as `datetime.min`. -/
def sortedMeetings (ms : List PyDoc) : List PyDoc :=
  List.insertionSort aggLe ms

/-- A document models the faithful region of the naive-datetime sort when
its `date` key is absent or holds a naive datetime (Python raises on
null dates and on naive/aware mixes, which are outside this model). -/
def naiveDateDoc (d : PyDoc) : Prop :=
  match d.date with
  | none => True
  | some (some t) => t.tzOffsetMinutes = none
  | some none => False

/-- The Drive-export-shaped document of the schema round-trip claim: a
`name` field, no `title`/`transcript`/`date`, a `content` with an embedded
transcript section, and a string `createdTime`. -/
def docC3 (nm : String) : PyDoc :=
  { name := some (some nm),
    content := some (some "📖 Transcript\n[00:00:01] Eve: hi"),
    createdTime := some (.ctStr "2025-01-01T00:00:00.000Z") }

/-- Fixed points of `re.sub(r'\s+', ' ', s)`: every whitespace character is a
plain space and no two whitespace characters are adjacent. -/
def noRunB : List Char → Bool
  | [] => true
  | [c] => !isPySpace c || c == ' '
  | a :: b :: rest => (!isPySpace a || (a == ' ' && !isPySpace b)) && noRunB (b :: rest)

/-! Groundwork lemmas about the string primitives. -/

theorem dropTrail_decomp (l : List Char) :
    ∃ s, l = dropTrail l ++ s ∧ ∀ c ∈ s, isPySpace c = true := by
  induction l with
  | nil => exact ⟨[], rfl, by simp⟩
  | cons a rest ih =>
    obtain ⟨s, hs, hsp⟩ := ih
    show ∃ t, a :: rest = (match dropTrail rest with
      | [] => if isPySpace a then [] else [a]
      | r => a :: r) ++ t ∧ ∀ c ∈ t, isPySpace c = true
    cases h : dropTrail rest with
    | nil =>
      by_cases ha : isPySpace a = true
      · refine ⟨a :: rest, ?_, ?_⟩
        · simp [ha]
        · intro c hc
          rcases List.mem_cons.mp hc with rfl | hc
          · exact ha
          · rw [h] at hs; simpa using hsp c (by simpa [hs] using hc)
      · refine ⟨rest, ?_, ?_⟩
        · simp [ha]
        · intro c hc
          rw [h] at hs; exact hsp c (by simpa [hs] using hc)
    | cons x xs =>
      refine ⟨s, ?_, hsp⟩
      rw [h] at hs
      simpa using hs

theorem dropTrail_head {l : List Char} {x : Char} {xs : List Char}
    (h : dropTrail l = x :: xs) : ∃ t, l = x :: t := by
  obtain ⟨s, hs, _⟩ := dropTrail_decomp l
  rw [h] at hs
  exact ⟨xs ++ s, by simpa using hs⟩

theorem mem_dropTrail {l : List Char} {c : Char} (h : c ∈ dropTrail l) : c ∈ l := by
  obtain ⟨s, hs, _⟩ := dropTrail_decomp l
  rw [hs]; exact List.mem_append_left _ h

theorem dropTrail_idem (l : List Char) : dropTrail (dropTrail l) = dropTrail l := by
  induction l with
  | nil => rfl
  | cons a rest ih =>
    show dropTrail (match dropTrail rest with
      | [] => if isPySpace a then [] else [a]
      | r => a :: r) = (match dropTrail rest with
      | [] => if isPySpace a then [] else [a]
      | r => a :: r)
    cases h : dropTrail rest with
    | nil =>
      by_cases ha : isPySpace a = true
      · simp [ha, dropTrail]
      · simp [ha, dropTrail]
    | cons x xs =>
      rw [h] at ih
      show dropTrail (a :: x :: xs) = a :: x :: xs
      show (match dropTrail (x :: xs) with
        | [] => if isPySpace a then [] else [a]
        | r => a :: r) = a :: x :: xs
      rw [ih]

theorem dropTrail_all_space {l : List Char} (h : dropTrail l = []) :
    ∀ c ∈ l, isPySpace c = true := by
  obtain ⟨s, hs, hsp⟩ := dropTrail_decomp l
  rw [h] at hs
  intro c hc
  exact hsp c (by simpa [hs] using hc)

theorem stripL_nil : stripL [] = [] := rfl

theorem dropWhile_head_false {p : Char → Bool} :
    ∀ {l : List Char} {c : Char} {t : List Char},
      l.dropWhile p = c :: t → p c = false := by
  intro l
  induction l with
  | nil => intro c t h; cases h
  | cons a rest ih =>
    intro c t h
    by_cases hp : p a = true
    · rw [List.dropWhile_cons_of_pos hp] at h
      exact ih h
    · rw [List.dropWhile_cons_of_neg (by simpa using hp)] at h
      obtain ⟨rfl, -⟩ := List.cons.inj h
      simpa using hp

theorem stripL_head_not {l : List Char} {c : Char} {r : List Char}
    (h : stripL l = c :: r) : isPySpace c = false := by
  unfold stripL at h
  obtain ⟨t, ht⟩ := dropTrail_head h
  exact dropWhile_head_false ht

theorem mem_stripL {l : List Char} {c : Char} (h : c ∈ stripL l) : c ∈ l := by
  unfold stripL at h
  exact List.dropWhile_subset _ (mem_dropTrail h)

theorem stripL_idem (l : List Char) : stripL (stripL l) = stripL l := by
  unfold stripL
  cases h : dropTrail (l.dropWhile isPySpace) with
  | nil => rfl
  | cons x xs =>
    have hx : isPySpace x = false := stripL_head_not (l := l) (by
      unfold stripL; rw [h])
    rw [List.dropWhile_cons_of_neg (by simp [hx])]
    rw [← h, dropTrail_idem]

theorem stripL_all_space {l : List Char} (h : stripL l = []) :
    ∀ c ∈ l, isPySpace c = true := by
  intro c hc
  by_cases hcs : isPySpace c = true
  · exact hcs
  · exfalso
    have hdw : ∀ x ∈ l.dropWhile isPySpace, isPySpace x = true :=
      dropTrail_all_space h
    have : c ∈ l.takeWhile isPySpace ++ l.dropWhile isPySpace := by
      rwa [List.takeWhile_append_dropWhile]
    rcases List.mem_append.mp this with h1 | h2
    · exact hcs (List.mem_takeWhile_imp h1)
    · exact hcs (hdw c h2)

theorem stripL_ne_nil {l : List Char} {c : Char} (hc : c ∈ l)
    (hcs : isPySpace c = false) : stripL l ≠ [] := by
  intro h
  have := stripL_all_space h c hc
  rw [this] at hcs
  exact Bool.noConfusion hcs

theorem noRunB_tail {a : Char} {l : List Char} (h : noRunB (a :: l) = true) :
    noRunB l = true := by
  cases l with
  | nil => rfl
  | cons b rest => exact (Bool.and_eq_true_iff.mp h).2

theorem noRunB_pair_weaken {a b : Char}
    (h : (!isPySpace a || (a == ' ' && !isPySpace b)) = true) :
    (!isPySpace a || a == ' ') = true := by
  rcases Bool.or_eq_true_iff.mp h with h1 | h1
  · exact Bool.or_eq_true_iff.mpr (Or.inl h1)
  · exact Bool.or_eq_true_iff.mpr (Or.inr (Bool.and_eq_true_iff.mp h1).1)

theorem noRunB_head_cons {a : Char} {rest : List Char} {x : Char} {t : List Char}
    (h : noRunB (a :: rest) = true) (hr : rest = x :: t) :
    (!isPySpace a || (a == ' ' && !isPySpace x)) = true := by
  subst hr
  exact (Bool.and_eq_true_iff.mp h).1

theorem noRunB_cons_of_head {a : Char} {rest : List Char}
    (hpair : (!isPySpace a || a == ' ') = true)
    (hhead : ∀ x t, rest = x :: t → (!isPySpace a || (a == ' ' && !isPySpace x)) = true)
    (hrest : noRunB rest = true) : noRunB (a :: rest) = true := by
  cases rest with
  | nil => exact hpair
  | cons x t =>
    simp only [noRunB]
    exact Bool.and_eq_true_iff.mpr ⟨hhead x t rfl, hrest⟩

theorem collapseL_cons_nonspace {a : Char} (rest : List Char)
    (ha : isPySpace a = false) : collapseL (a :: rest) = a :: collapseL rest := by
  cases rest with
  | nil => simp [collapseL, ha]
  | cons b r => simp [collapseL, ha]

theorem noRunB_collapseL (l : List Char) : noRunB (collapseL l) = true := by
  induction l with
  | nil => rfl
  | cons a rest ih =>
    cases rest with
    | nil =>
      by_cases ha : isPySpace a = true <;> simp [collapseL, noRunB, ha]
    | cons b r2 =>
      by_cases ha : isPySpace a = true
      · by_cases hb : isPySpace b = true
        · simpa [collapseL, ha, hb] using ih
        · have hbf : isPySpace b = false := by simpa using hb
          have hc : collapseL (a :: b :: r2) = ' ' :: collapseL (b :: r2) := by
            simp [collapseL, ha, hbf]
          have hb2 : collapseL (b :: r2) = b :: collapseL r2 :=
            collapseL_cons_nonspace _ hbf
          rw [hc, hb2]
          have ih2 : noRunB (b :: collapseL r2) = true := by rwa [hb2] at ih
          refine noRunB_cons_of_head (by decide) ?_ ih2
          intro x t hxt
          obtain ⟨rfl, -⟩ := List.cons.inj hxt.symm
          rw [hbf]
          decide
      · have hc : collapseL (a :: b :: r2) = a :: collapseL (b :: r2) :=
          collapseL_cons_nonspace _ (by simpa using ha)
        rw [hc]
        cases hcl : collapseL (b :: r2) with
        | nil => simp [noRunB, ha]
        | cons y ys =>
          rw [hcl] at ih
          simp only [noRunB]
          refine Bool.and_eq_true_iff.mpr ⟨?_, ih⟩
          simp [ha]

theorem collapseL_of_noRunB {l : List Char} (h : noRunB l = true) :
    collapseL l = l := by
  induction l with
  | nil => rfl
  | cons a rest ih =>
    cases rest with
    | nil =>
      simp only [noRunB] at h
      by_cases ha : isPySpace a = true
      · have : a = ' ' := by
          rcases Bool.or_eq_true_iff.mp h with h1 | h1
          · simp [ha] at h1
          · exact eq_of_beq h1
        simp [collapseL, ha, this]
      · simp [collapseL, ha]
    | cons b r2 =>
      simp only [noRunB] at h
      obtain ⟨hp, ht⟩ := Bool.and_eq_true_iff.mp h
      have ihr := ih ht
      by_cases ha : isPySpace a = true
      · have hae : a = ' ' ∧ isPySpace b = false := by
          rcases Bool.or_eq_true_iff.mp hp with h1 | h1
          · simp [ha] at h1
          · obtain ⟨h2, h3⟩ := Bool.and_eq_true_iff.mp h1
            exact ⟨eq_of_beq h2, by simpa using h3⟩
        have : collapseL (a :: b :: r2) = ' ' :: collapseL (b :: r2) := by
          simp [collapseL, ha, hae.2]
        rw [this, ihr, hae.1]
      · rw [collapseL_cons_nonspace _ (by simpa using ha), ihr]

theorem collapseL_idem (l : List Char) : collapseL (collapseL l) = collapseL l :=
  collapseL_of_noRunB (noRunB_collapseL l)

theorem noRunB_single_of_pair {a : Char}
    (h : (!isPySpace a || a == ' ') = true) : noRunB [a] = true := h

theorem noRunB_dropWhile {l : List Char} (p : Char → Bool)
    (h : noRunB l = true) : noRunB (l.dropWhile p) = true := by
  induction l with
  | nil => exact h
  | cons a rest ih =>
    by_cases hp : p a = true
    · rw [List.dropWhile_cons_of_pos hp]
      exact ih (noRunB_tail h)
    · rwa [List.dropWhile_cons_of_neg (by simpa using hp)]

theorem noRunB_dropTrail {l : List Char} (h : noRunB l = true) :
    noRunB (dropTrail l) = true := by
  induction l with
  | nil => exact h
  | cons a rest ih =>
    show noRunB (match dropTrail rest with
      | [] => if isPySpace a then [] else [a]
      | r => a :: r) = true
    cases hdt : dropTrail rest with
    | nil =>
      by_cases ha : isPySpace a = true
      · simp [ha, noRunB]
      · simp [ha, noRunB]
    | cons x xs =>
      have hihr : noRunB (x :: xs) = true := by
        rw [← hdt]; exact ih (noRunB_tail h)
      obtain ⟨t, ht⟩ := dropTrail_head hdt
      refine noRunB_cons_of_head (noRunB_pair_weaken (noRunB_head_cons h ht)) ?_ hihr
      intro y u hy
      obtain ⟨rfl, -⟩ := List.cons.inj hy.symm
      exact noRunB_head_cons h ht

theorem noRunB_stripL {l : List Char} (h : noRunB l = true) :
    noRunB (stripL l) = true :=
  noRunB_dropTrail (noRunB_dropWhile _ h)

theorem noRunB_takeWhile {l : List Char} (p : Char → Bool)
    (h : noRunB l = true) : noRunB (l.takeWhile p) = true := by
  induction l with
  | nil => exact h
  | cons a rest ih =>
    by_cases hp : p a = true
    · rw [List.takeWhile_cons_of_pos hp]
      have hihr := ih (noRunB_tail h)
      refine noRunB_cons_of_head ?_ ?_ hihr
      · cases rest with
        | nil => exact h
        | cons b t => exact noRunB_pair_weaken (noRunB_head_cons h rfl)
      · intro y u hy
        cases rest with
        | nil => simp at hy
        | cons b t =>
          by_cases hpb : p b = true
          · rw [List.takeWhile_cons_of_pos hpb] at hy
            obtain ⟨rfl, -⟩ := List.cons.inj hy.symm
            exact noRunB_head_cons h rfl
          · rw [List.takeWhile_cons_of_neg (by simpa using hpb)] at hy
            cases hy
    · rw [List.takeWhile_cons_of_neg (by simpa using hp)]
      rfl

theorem mem_collapseL {l : List Char} {c : Char} (h : c ∈ collapseL l) :
    c ∈ l ∨ c = ' ' := by
  induction l with
  | nil => cases h
  | cons a rest ih =>
    cases rest with
    | nil =>
      by_cases ha : isPySpace a = true
      · simp [collapseL, ha] at h
        exact Or.inr h
      · simp [collapseL, ha] at h
        exact Or.inl (by simp [h])
    | cons b r2 =>
      by_cases ha : isPySpace a = true
      · by_cases hb : isPySpace b = true
        · simp only [collapseL, ha, hb, Bool.and_self] at h
          rcases ih (by simpa [collapseL] using h) with h1 | h1
          · exact Or.inl (List.mem_cons_of_mem _ h1)
          · exact Or.inr h1
        · have : collapseL (a :: b :: r2) = ' ' :: collapseL (b :: r2) := by
            simp [collapseL, ha, hb]
          rw [this] at h
          rcases List.mem_cons.mp h with rfl | h1
          · exact Or.inr rfl
          · rcases ih h1 with h2 | h2
            · exact Or.inl (List.mem_cons_of_mem _ h2)
            · exact Or.inr h2
      · rw [collapseL_cons_nonspace _ (by simpa using ha)] at h
        rcases List.mem_cons.mp h with rfl | h1
        · exact Or.inl (List.mem_cons_self _ _)
        · rcases ih h1 with h2 | h2
          · exact Or.inl (List.mem_cons_of_mem _ h2)
          · exact Or.inr h2

/-! Lemmas about the bracket-annotation pattern and the name normalizer. -/

theorem brkSplit_props {l : List Char} {g : List Char} (h : brkSplit l = some g) :
    g = brkHead l ∧ g ≠ [] ∧ '[' ∈ l := by
  unfold brkSplit at h
  split at h
  next tail heq =>
    have hmem : '[' ∈ l :=
      List.drop_subset _ _ (heq ▸ List.mem_cons_self '[' tail)
    split at h
    next hpre => cases h
    next hpre =>
      split at h
      next revContent heq2 =>
        split at h
        next => cases h
        next =>
          obtain rfl := Option.some.inj h
          exact ⟨rfl, by simpa [List.isEmpty_iff] using hpre, hmem⟩
      next => cases h
  next => cases h

theorem brkSplit_none_of_not_mem {l : List Char} (h : '[' ∉ l) :
    brkSplit l = none := by
  cases hb : brkSplit l with
  | none => rfl
  | some g => exact absurd (brkSplit_props hb).2.2 h

theorem takeWhile_head {p : Char → Bool} {l : List Char} {y : Char} {ys : List Char}
    (h : l.takeWhile p = y :: ys) : ∃ t, l = y :: t := by
  cases l with
  | nil => cases h
  | cons c t =>
    by_cases hp : p c = true
    · rw [List.takeWhile_cons_of_pos hp] at h
      obtain ⟨rfl, -⟩ := List.cons.inj h
      exact ⟨t, rfl⟩
    · rw [List.takeWhile_cons_of_neg (by simpa using hp)] at h
      cases h

theorem not_lbrack_mem_brkHead {l : List Char} : '[' ∉ brkHead l := by
  intro h
  have := List.mem_takeWhile_imp h
  simp at this

theorem nameMapping_out {x c : List Char} (h : nameMapping x = some c) :
    c = "Nam Pham".data ∨ c = "Chiko Nakamura".data ∨ c = "Thomas Shin".data := by
  unfold nameMapping at h
  split_ifs at h <;> cases h <;> simp

theorem normCore_of_map {n c : List Char} (h : nameMapping n = some c) :
    normCore n = c := by
  unfold normCore; rw [h]

theorem normCore_of_brk {n g : List Char} (hm : nameMapping n = none)
    (hb : brkSplit n = some g) :
    normCore n = (nameMapping (stripL g)).getD (stripL g) := by
  unfold normCore; rw [hm, hb]

theorem normCore_of_collapse {n : List Char} (hm : nameMapping n = none)
    (hb : brkSplit n = none) :
    normCore n = (nameMapping (stripL (collapseL n))).getD (stripL (collapseL n)) := by
  unfold normCore; rw [hm, hb]

theorem nPNL_of_ne_nil {l : List Char} (h : l ≠ []) :
    normalizePNL l = normCore (stripL l) := by
  unfold normalizePNL
  rw [show l.isEmpty = false from by simpa [List.isEmpty_iff] using h]
  simp

theorem normCore_stripped (n : List Char) :
    stripL (normCore n) = normCore n := by
  cases hm : nameMapping n with
  | some c =>
    rw [normCore_of_map hm]
    rcases nameMapping_out hm with rfl | rfl | rfl <;> decide
  | none =>
    cases hb : brkSplit n with
    | some g =>
      rw [normCore_of_brk hm hb]
      cases hm2 : nameMapping (stripL g) with
      | some c =>
        rw [Option.getD_some]
        rcases nameMapping_out hm2 with rfl | rfl | rfl <;> decide
      | none =>
        rw [Option.getD_none]
        exact stripL_idem g
    | none =>
      rw [normCore_of_collapse hm hb]
      cases hm3 : nameMapping (stripL (collapseL n)) with
      | some c =>
        rw [Option.getD_some]
        rcases nameMapping_out hm3 with rfl | rfl | rfl <;> decide
      | none =>
        rw [Option.getD_none]
        exact stripL_idem _

theorem nPNL_stripped (l : List Char) :
    stripL (normalizePNL l) = normalizePNL l := by
  by_cases h : l = []
  · subst h; rfl
  · rw [nPNL_of_ne_nil h]
    exact normCore_stripped (stripL l)

theorem normCore_ne_nil {n : List Char} (hn : stripL n = n) (hne : n ≠ []) :
    normCore n ≠ [] := by
  obtain ⟨c, t, rfl⟩ : ∃ c t, n = c :: t := by
    cases n with
    | nil => exact absurd rfl hne
    | cons c t => exact ⟨c, t, rfl⟩
  have hc : isPySpace c = false := stripL_head_not hn
  cases hm : nameMapping (c :: t) with
  | some cv =>
    rw [normCore_of_map hm]
    rcases nameMapping_out hm with rfl | rfl | rfl <;> decide
  | none =>
    cases hb : brkSplit (c :: t) with
    | some g =>
      obtain ⟨hg, hgne, -⟩ := brkSplit_props hb
      rw [normCore_of_brk hm hb]
      cases hm2 : nameMapping (stripL g) with
      | some cv =>
        rw [Option.getD_some]
        rcases nameMapping_out hm2 with rfl | rfl | rfl <;> decide
      | none =>
        rw [Option.getD_none]
        obtain ⟨y, ys, hgy⟩ : ∃ y ys, g = y :: ys := by
          cases g with
          | nil => exact absurd rfl hgne
          | cons y ys => exact ⟨y, ys, rfl⟩
        have hbh : (c :: t).takeWhile (fun c => c != '[' && c != ']') = y :: ys := by
          have hb2 : brkHead (c :: t) = y :: ys := by rw [← hg, hgy]
          exact hb2
        obtain ⟨t2, ht2⟩ := takeWhile_head hbh
        obtain ⟨h1, -⟩ := List.cons.inj ht2
        subst h1
        refine stripL_ne_nil ?_ hc
        rw [hgy]
        exact List.mem_cons_self _ _
    | none =>
      rw [normCore_of_collapse hm hb]
      cases hm3 : nameMapping (stripL (collapseL (c :: t))) with
      | some cv =>
        rw [Option.getD_some]
        rcases nameMapping_out hm3 with rfl | rfl | rfl <;> decide
      | none =>
        rw [Option.getD_none]
        have hcc : collapseL (c :: t) = c :: collapseL t := collapseL_cons_nonspace _ hc
        exact stripL_ne_nil (hcc ▸ List.mem_cons_self c (collapseL t)) hc

theorem nPNL_ne_nil {l : List Char} (h : stripL l ≠ []) :
    normalizePNL l ≠ [] := by
  have hl : l ≠ [] := fun hc => h (by rw [hc]; rfl)
  rw [nPNL_of_ne_nil hl]
  exact normCore_ne_nil (stripL_idem l) h

theorem nPNL_fix_collapsed {m : List Char} (hsm : stripL m = m)
    (hnr : noRunB m = true) (hmm : nameMapping m = none)
    (hbm : brkSplit m = none) : normalizePNL m = m := by
  by_cases hm0 : m = []
  · subst hm0; rfl
  rw [nPNL_of_ne_nil hm0, hsm, normCore_of_collapse hmm hbm,
    collapseL_of_noRunB hnr, hsm, hmm]
  rfl

theorem not_lbrack_of_strip_collapse {r : List Char}
    (hb : '[' ∉ r) : '[' ∉ stripL (collapseL r) := by
  intro hmem
  rcases mem_collapseL (mem_stripL hmem) with h1 | h1
  · exact hb h1
  · cases h1

theorem nPNL_fix_of_noLB {r : List Char} (hs : stripL r = r) (hb : '[' ∉ r) :
    normalizePNL (normalizePNL r) = normalizePNL r := by
  by_cases hr : r = []
  · subst hr; rfl
  rw [nPNL_of_ne_nil hr, hs]
  cases hm : nameMapping r with
  | some c =>
    rw [normCore_of_map hm]
    rcases nameMapping_out hm with rfl | rfl | rfl <;> decide
  | none =>
    rw [normCore_of_collapse hm (brkSplit_none_of_not_mem hb)]
    cases hm2 : nameMapping (stripL (collapseL r)) with
    | some c =>
      rw [Option.getD_some]
      rcases nameMapping_out hm2 with rfl | rfl | rfl <;> decide
    | none =>
      rw [Option.getD_none]
      exact nPNL_fix_collapsed (stripL_idem _)
        (noRunB_stripL (noRunB_collapseL r)) hm2
        (brkSplit_none_of_not_mem (not_lbrack_of_strip_collapse hb))

theorem nPNL_fix_of_noRun {r : List Char} (hs : stripL r = r)
    (hnr : noRunB r = true) :
    normalizePNL (normalizePNL r) = normalizePNL r := by
  by_cases hr : r = []
  · subst hr; rfl
  rw [nPNL_of_ne_nil hr, hs]
  cases hm : nameMapping r with
  | some c =>
    rw [normCore_of_map hm]
    rcases nameMapping_out hm with rfl | rfl | rfl <;> decide
  | none =>
    cases hbk : brkSplit r with
    | some g =>
      obtain ⟨hg, hgne, -⟩ := brkSplit_props hbk
      rw [normCore_of_brk hm hbk]
      cases hm2 : nameMapping (stripL g) with
      | some c =>
        rw [Option.getD_some]
        rcases nameMapping_out hm2 with rfl | rfl | rfl <;> decide
      | none =>
        rw [Option.getD_none]
        have hnb : '[' ∉ stripL g := by
          intro hmem
          exact not_lbrack_mem_brkHead (hg ▸ mem_stripL hmem)
        refine nPNL_fix_collapsed (stripL_idem g) ?_ hm2
          (brkSplit_none_of_not_mem hnb)
        have : noRunB g = true := hg ▸ noRunB_takeWhile _ hnr
        exact noRunB_stripL this
    | none =>
      have hm3 : stripL (collapseL r) = r := by
        rw [collapseL_of_noRunB hnr, hs]
      rw [normCore_of_collapse hm hbk, hm3, hm, Option.getD_none]
      rw [nPNL_of_ne_nil hr, hs, normCore_of_collapse hm hbk, hm3, hm]
      rfl

theorem nPNL_range (l : List Char) :
    normalizePNL l = [] ∨
    normalizePNL l = "Nam Pham".data ∨
    normalizePNL l = "Chiko Nakamura".data ∨
    normalizePNL l = "Thomas Shin".data ∨
    (stripL (normalizePNL l) = normalizePNL l ∧
      ('[' ∉ normalizePNL l ∨ noRunB (normalizePNL l) = true)) := by
  by_cases hl : l = []
  · subst hl; exact Or.inl rfl
  rw [nPNL_of_ne_nil hl]
  cases hm : nameMapping (stripL l) with
  | some c =>
    rw [normCore_of_map hm]
    rcases nameMapping_out hm with rfl | rfl | rfl
    · exact Or.inr (Or.inl rfl)
    · exact Or.inr (Or.inr (Or.inl rfl))
    · exact Or.inr (Or.inr (Or.inr (Or.inl rfl)))
  | none =>
    cases hbk : brkSplit (stripL l) with
    | some g =>
      obtain ⟨hg, -, -⟩ := brkSplit_props hbk
      rw [normCore_of_brk hm hbk]
      cases hm2 : nameMapping (stripL g) with
      | some c =>
        rw [Option.getD_some]
        rcases nameMapping_out hm2 with rfl | rfl | rfl
        · exact Or.inr (Or.inl rfl)
        · exact Or.inr (Or.inr (Or.inl rfl))
        · exact Or.inr (Or.inr (Or.inr (Or.inl rfl)))
      | none =>
        rw [Option.getD_none]
        refine Or.inr (Or.inr (Or.inr (Or.inr ⟨stripL_idem g, Or.inl ?_⟩)))
        intro hmem
        exact not_lbrack_mem_brkHead (hg ▸ mem_stripL hmem)
    | none =>
      rw [normCore_of_collapse hm hbk]
      cases hm3 : nameMapping (stripL (collapseL (stripL l))) with
      | some c =>
        rw [Option.getD_some]
        rcases nameMapping_out hm3 with rfl | rfl | rfl
        · exact Or.inr (Or.inl rfl)
        · exact Or.inr (Or.inr (Or.inl rfl))
        · exact Or.inr (Or.inr (Or.inr (Or.inl rfl)))
      | none =>
        rw [Option.getD_none]
        exact Or.inr (Or.inr (Or.inr (Or.inr
          ⟨stripL_idem _, Or.inr (noRunB_stripL (noRunB_collapseL _))⟩)))

theorem nPNL_stabilizes (l : List Char) :
    normalizePNL (normalizePNL (normalizePNL l)) =
      normalizePNL (normalizePNL l) := by
  rcases nPNL_range l with h | h | h | h | ⟨hs, hor⟩
  · rw [h]; rfl
  · rw [h]; decide
  · rw [h]; decide
  · rw [h]; decide
  · rcases hor with hb | hnr
    · exact nPNL_fix_of_noLB hs hb
    · exact nPNL_fix_of_noRun hs hnr

/-! Parser lemmas: the cursor strictly advances and every emitted speaker is
a nonempty normalized name. -/

theorem format4_fst (line : List Char) (i : Nat) (acc : List Utt) :
    (format4 line i acc).1 = i + 1 := by
  unfold format4
  repeat' split
  all_goals (try simp only [])
  all_goals (repeat' split)
  all_goals rfl

theorem parseStep_advance (lines : List (List Char)) (i : Nat) (acc : List Utt) :
    i + 1 ≤ (parseStep lines i acc).1 := by
  simp only [parseStep]
  repeat' split
  all_goals simp [format4_fst]
  all_goals omega

theorem parseGo_isSome (lines : List (List Char)) :
    ∀ (fuel i : Nat) (acc : List Utt), lines.length - i ≤ fuel →
      (parseGo lines fuel i acc).isSome = true := by
  intro fuel
  induction fuel with
  | zero =>
    intro i acc h
    unfold parseGo
    split
    · omega
    · rfl
  | succ n ih =>
    intro i acc h
    unfold parseGo
    split
    next hlt =>
      apply ih
      have := parseStep_advance lines i acc
      omega
    · rfl

theorem mkStr_ne_empty {l : List Char} (h : l ≠ []) : (⟨l⟩ : String) ≠ "" := by
  intro hc
  apply h
  have := congrArg String.data hc
  simpa using this

theorem isValid_strip_ne_nil {sp : List Char}
    (h : isValidParticipantL sp = true) : stripL sp ≠ [] := by
  intro hc
  simp only [isValidParticipantL, hc] at h
  simp at h

theorem updLastText_cons {a : Utt} {l : List Utt} (tx : List Char)
    (h : l ≠ []) : updLastText (a :: l) tx = a :: updLastText l tx := by
  cases l with
  | nil => exact absurd rfl h
  | cons b r2 => rfl

theorem updLastText_speaker {tx : List Char} {u : Utt} :
    ∀ {acc : List Utt}, u ∈ updLastText acc tx → ∃ v ∈ acc, u.speaker = v.speaker := by
  intro acc
  induction acc with
  | nil => intro hu; cases hu
  | cons a rest ih =>
    intro hu
    cases rest with
    | nil =>
      simp only [updLastText, List.mem_singleton] at hu
      exact ⟨a, List.mem_cons_self _ _, by rw [hu]⟩
    | cons b r2 =>
      rw [updLastText_cons tx (by simp)] at hu
      rcases List.mem_cons.mp hu with rfl | h2
      · exact ⟨u, List.mem_cons_self _ _, rfl⟩
      · obtain ⟨v, hv, he⟩ := ih h2
        exact ⟨v, List.mem_cons_of_mem _ hv, he⟩

theorem nPNL_of_valid_ne_nil {sp : List Char}
    (h : isValidParticipantL sp = true) : normalizePNL sp ≠ [] :=
  nPNL_ne_nil (isValid_strip_ne_nil h)

theorem format4_speaker_ne {line : List Char} {i : Nat} {acc : List Utt}
    (hacc : ∀ u ∈ acc, u.speaker ≠ "") :
    ∀ u ∈ (format4 line i acc).2, u.speaker ≠ "" := by
  intro u hu
  simp only [format4] at hu
  split at hu
  · exact hacc u hu
  next sp tx heq =>
    split at hu
    · exact hacc u hu
    · split at hu
      · exact hacc u hu
      next hval =>
        have hv : isValidParticipantL (stripL sp) = true := by
          simpa using hval
        split at hu
        next last hlast =>
          split at hu
          · obtain ⟨v, hv2, he⟩ := updLastText_speaker hu
            rw [he]; exact hacc v hv2
          · rcases List.mem_append.mp hu with h1 | h1
            · exact hacc u h1
            · simp only [List.mem_singleton] at h1
              rw [h1]
              exact mkStr_ne_empty (nPNL_of_valid_ne_nil hv)
        next hlast =>
          rcases List.mem_append.mp hu with h1 | h1
          · exact hacc u h1
          · simp only [List.mem_singleton] at h1
            rw [h1]
            exact mkStr_ne_empty (nPNL_of_valid_ne_nil hv)

theorem parseStep_speaker_ne (lines : List (List Char)) (i : Nat)
    {acc : List Utt} (hacc : ∀ u ∈ acc, u.speaker ≠ "") :
    ∀ u ∈ (parseStep lines i acc).2, u.speaker ≠ "" := by
  intro u hu
  simp only [parseStep] at hu
  split at hu
  · exact hacc u hu
  · split at hu
    next ts sp tx heq =>
      split at hu
      next hval =>
        rcases List.mem_append.mp hu with h1 | h1
        · exact hacc u h1
        · simp only [List.mem_singleton] at h1
          rw [h1]
          exact mkStr_ne_empty (nPNL_of_valid_ne_nil hval)
      · exact hacc u hu
    · split at hu
      · split at hu
        · split at hu
          next sp tx heq =>
            split at hu
            · exact hacc u hu
            next hval =>
              have hv : isValidParticipantL (stripL sp) = true := by
                simpa using hval
              rcases List.mem_append.mp hu with h1 | h1
              · exact hacc u h1
              · simp only [List.mem_singleton] at h1
                rw [h1]
                show (⟨stripL (normalizePNL (stripL sp))⟩ : String) ≠ ""
                rw [nPNL_stripped]
                exact mkStr_ne_empty (nPNL_of_valid_ne_nil hv)
          next => exact format4_speaker_ne hacc u hu
        · exact format4_speaker_ne hacc u hu
      · exact format4_speaker_ne hacc u hu

theorem parseGo_speaker_ne (lines : List (List Char)) :
    ∀ (fuel i : Nat) (acc : List Utt), (∀ u ∈ acc, u.speaker ≠ "") →
      ∀ r : List Utt, parseGo lines fuel i acc = some r →
        ∀ u ∈ r, u.speaker ≠ "" := by
  intro fuel
  induction fuel with
  | zero =>
    intro i acc hacc r hr
    unfold parseGo at hr
    split at hr
    · cases hr
    · obtain rfl := Option.some.inj hr
      exact hacc
  | succ n ih =>
    intro i acc hacc r hr
    unfold parseGo at hr
    split at hr
    · exact ih _ _ (parseStep_speaker_ne lines i hacc) r hr
    · obtain rfl := Option.some.inj hr
      exact hacc

theorem updLastText_concat (pre : List Utt) (u : Utt) (tx : List Char) :
    updLastText (pre ++ [u]) tx =
      pre ++ [{ u with text := ⟨u.text.data ++ ' ' :: tx⟩ }] := by
  induction pre with
  | nil => rfl
  | cons a rest ih =>
    rw [List.cons_append, updLastText_cons tx (by simp), ih, List.cons_append]

theorem parseStep_to_format4 {lines : List (List Char)} {i : Nat} (acc : List Utt)
    (h1 : stripL (lines.getD i []) ≠ [])
    (h2 : matchSingleLine (stripL (lines.getD i [])) = none)
    (h3 : tsFullB (stripL (lines.getD i [])) = false) :
    parseStep lines i acc = format4 (stripL (lines.getD i [])) i acc := by
  simp only [parseStep, h2, h3]
  rw [if_neg (by simpa [List.isEmpty_iff] using h1)]
  simp

theorem format4_continuation {line sp tx : List Char} {i : Nat}
    {pre : List Utt} {u : Utt}
    (hsp : spMatch line = some (sp, tx))
    (hts : tsShapedB (stripL sp) = false)
    (hval : isValidParticipantL (stripL sp) = true)
    (hspk : u.speaker = (⟨normalizePNL (stripL sp)⟩ : String)) :
    format4 line i (pre ++ [u]) =
      (i + 1, pre ++ [{ u with text := ⟨u.text.data ++ ' ' :: stripL tx⟩ }]) := by
  simp only [format4, hsp, hts, hval, Bool.not_true, List.getLast?_concat,
    Bool.false_eq_true, if_false]
  rw [if_pos hspk, updLastText_concat]

theorem format4_new_speaker {line sp tx : List Char} {i : Nat}
    {pre : List Utt} {u : Utt}
    (hsp : spMatch line = some (sp, tx))
    (hts : tsShapedB (stripL sp) = false)
    (hval : isValidParticipantL (stripL sp) = true)
    (hspk : u.speaker ≠ (⟨normalizePNL (stripL sp)⟩ : String)) :
    format4 line i (pre ++ [u]) =
      (i + 1, (pre ++ [u]) ++
        [⟨u.timestamp, ⟨normalizePNL (stripL sp)⟩, ⟨stripL (stripL tx)⟩⟩]) := by
  simp only [format4, hsp, hts, hval, Bool.not_true, List.getLast?_concat,
    Bool.false_eq_true, if_false]
  rw [if_neg hspk]

theorem format4_first_utt {line sp tx : List Char} {i : Nat}
    (hsp : spMatch line = some (sp, tx))
    (hts : tsShapedB (stripL sp) = false)
    (hval : isValidParticipantL (stripL sp) = true) :
    format4 line i [] =
      (i + 1, [⟨"00:00:00", ⟨normalizePNL (stripL sp)⟩, ⟨stripL (stripL tx)⟩⟩]) := by
  simp only [format4, hsp, hts, hval, Bool.not_true, Bool.false_eq_true, if_false]
  rfl

/-! Claim theorems for the transcript parser and the name normalizer. -/

/-- C1 counterexample: the input line `[00:00:01] 1[ x ]: hi` parses to an
utterance whose normalized speaker is `1`, and `1` does not pass
`_is_valid_participant`; so a parsed utterance's speaker need not pass the
validator. -/
theorem parse_speaker_fails_validator_cx :
    parse_transcript "[00:00:01] 1[ x ]: hi" = [⟨"00:00:01", "1", "hi"⟩] ∧
    isValidParticipant "1" = false := by decide

/-- C1 (amended): every utterance record returned by `parse_transcript` has a
non-empty speaker field (the normalization of a raw label that passed the
validator); the normalized speaker itself need not pass the validator. -/
theorem parse_speaker_nonempty (t : String) (u : Utt)
    (hu : u ∈ parse_transcript t) : u.speaker ≠ "" := by
  unfold parse_transcript at hu
  cases hr : parseTranscriptRun t with
  | none => rw [hr] at hu; cases hu
  | some r =>
    rw [hr] at hu
    have hr2 : parseGo (splitNl t.data) (splitNl t.data).length 0 [] = some r := hr
    exact parseGo_speaker_ne (splitNl t.data) _ 0 [] (by intro v hv; cases hv) r hr2 u hu

/-- Witness for the amended C1 at a concrete transcript. -/
theorem parse_speaker_nonempty_witness :
    (⟨"00:00:01", "Eve", "hi"⟩ : Utt) ∈ parse_transcript "[00:00:01] Eve: hi" ∧
    (⟨"00:00:01", "Eve", "hi"⟩ : Utt).speaker ≠ "" :=
  ⟨by decide, parse_speaker_nonempty "[00:00:01] Eve: hi" _ (by decide)⟩

/-- C2: `parse_transcript` terminates on every input and returns a list: the
cursor strictly advances on every loop iteration, and the loop runner never
exhausts its fuel (one unit per input line), so every input yields `some`
result list. -/
theorem parse_transcript_total :
    (∀ (lines : List (List Char)) (i : Nat) (acc : List Utt),
      i < lines.length → i + 1 ≤ (parseStep lines i acc).1) ∧
    (∀ t : String, ∃ r : List Utt,
      parseTranscriptRun t = some r ∧ parse_transcript t = r) := by
  constructor
  · intro lines i acc _
    exact parseStep_advance lines i acc
  · intro t
    have h := parseGo_isSome (splitNl t.data) (splitNl t.data).length 0 [] (by omega)
    obtain ⟨r, hr⟩ := Option.isSome_iff_exists.mp h
    refine ⟨r, hr, ?_⟩
    unfold parse_transcript
    rw [show parseTranscriptRun t = some r from hr]
    rfl

/-- Witness for C2 at a concrete line list and transcript. -/
theorem parse_transcript_total_witness :
    0 + 1 ≤ (parseStep [['a']] 0 []).1 ∧
    (parseTranscriptRun "x").isSome = true :=
  ⟨parse_transcript_total.1 [['a']] 0 [] (by decide),
   by obtain ⟨r, hr, -⟩ := parse_transcript_total.2 "x"; rw [hr]; rfl⟩

/-- C5 counterexample: name normalization is not idempotent: for
`a  b[x]` one application gives `a  b` (bracket stripping, no whitespace
collapse) and a second application collapses the double space. -/
theorem normalize_name_not_idempotent_cx :
    normalizeParticipantName (normalizeParticipantName "a  b[x]") ≠
      normalizeParticipantName "a  b[x]" := by decide

/-- C5 (amended): name normalization stabilizes after two applications:
normalizing three times equals normalizing twice, for every input string
(single-application idempotence fails, see the counterexample). -/
theorem normalize_name_stabilizes (s : String) :
    normalizeParticipantName (normalizeParticipantName (normalizeParticipantName s)) =
      normalizeParticipantName (normalizeParticipantName s) :=
  congrArg String.mk (nPNL_stabilizes s.data)

/-- C6 counterexample: the non-empty input `" "` normalizes to the empty
string, so non-empty input does not guarantee non-empty output. -/
theorem normalize_name_empty_output_cx :
    (" " : String) ≠ "" ∧ normalizeParticipantName " " = "" := by decide

/-- C6 (amended): for every input that contains a non-whitespace character
(its strip is non-empty), `_normalize_participant_name` returns a non-empty
string. -/
theorem normalize_name_nonempty (s : String) (h : pyStrip s ≠ "") :
    normalizeParticipantName s ≠ "" := by
  have hl : stripL s.data ≠ [] := by
    intro hc
    apply h
    unfold pyStrip
    rw [hc]
  exact mkStr_ne_empty (nPNL_ne_nil hl)

/-- Witness for the amended C6 at a concrete name. -/
theorem normalize_name_nonempty_witness :
    pyStrip "Bob" ≠ "" ∧ normalizeParticipantName "Bob" ≠ "" :=
  ⟨by decide, normalize_name_nonempty "Bob" (by decide)⟩

/-- C7: on the timestamp-free two-line input the parser emits one utterance
with the fallback timestamp `00:00:00` and the concatenated text; and in
general, at a bare `speaker: text` line (no single-line or standalone
timestamp match), a valid speaker whose normalization equals the previous
utterance's speaker is appended to that utterance's text, otherwise a new
utterance is emitted with the previous utterance's timestamp, or with
`00:00:00` when nothing was emitted yet. -/
theorem parse_bare_speaker_behavior :
    (parse_transcript "Alice: Hello.\nAlice: How are you?" =
      [⟨"00:00:00", "Alice", "Hello. How are you?"⟩]) ∧
    (∀ (lines : List (List Char)) (i : Nat) (pre : List Utt) (u : Utt)
        (sp tx : List Char),
      stripL (lines.getD i []) ≠ [] →
      matchSingleLine (stripL (lines.getD i [])) = none →
      tsFullB (stripL (lines.getD i [])) = false →
      spMatch (stripL (lines.getD i [])) = some (sp, tx) →
      tsShapedB (stripL sp) = false →
      isValidParticipantL (stripL sp) = true →
      (u.speaker = (⟨normalizePNL (stripL sp)⟩ : String) →
        parseStep lines i (pre ++ [u]) =
          (i + 1, pre ++ [{ u with text := ⟨u.text.data ++ ' ' :: stripL tx⟩ }])) ∧
      (u.speaker ≠ (⟨normalizePNL (stripL sp)⟩ : String) →
        parseStep lines i (pre ++ [u]) =
          (i + 1, (pre ++ [u]) ++
            [⟨u.timestamp, ⟨normalizePNL (stripL sp)⟩, ⟨stripL (stripL tx)⟩⟩])) ∧
      parseStep lines i [] =
        (i + 1, [⟨"00:00:00", ⟨normalizePNL (stripL sp)⟩, ⟨stripL (stripL tx)⟩⟩])) := by
  refine ⟨by decide, ?_⟩
  intro lines i pre u sp tx h1 h2 h3 hsp hts hval
  refine ⟨?_, ?_, ?_⟩
  · intro hspk
    rw [parseStep_to_format4 _ h1 h2 h3, format4_continuation hsp hts hval hspk]
  · intro hspk
    rw [parseStep_to_format4 _ h1 h2 h3, format4_new_speaker hsp hts hval hspk]
  · rw [parseStep_to_format4 _ h1 h2 h3, format4_first_utt hsp hts hval]

/-- Witness for C7 at a concrete bare speaker line. -/
theorem parse_bare_speaker_behavior_witness :
    parseStep [['B', 'o', 'b', ':', ' ', 'h', 'i']] 0 [] =
      (1, [⟨"00:00:00", "Bob", "hi"⟩]) := by
  have h := (parse_bare_speaker_behavior.2 [['B', 'o', 'b', ':', ' ', 'h', 'i']]
      0 [] ⟨"", "", ""⟩ "Bob".data "hi".data (by decide) (by decide) (by decide)
      (by decide) (by decide) (by decide)).2.2
  rw [h]
  decide

/-! Transcript-section extraction lemmas and claim C8. -/

theorem extractWithMarker_none {m : Marker} {content : List Char}
    (h : markerIdx m content = none) : extractWithMarker m content = none := by
  unfold extractWithMarker
  rw [h]

theorem extractLoop_no_marker {ms : List Marker} {content : List Char}
    (h : ∀ m ∈ ms, markerIdx m content = none) :
    extractLoop ms content = content := by
  induction ms with
  | nil => rfl
  | cons m rest ih =>
    unfold extractLoop
    rw [extractWithMarker_none (h m (List.mem_cons_self _ _))]
    exact ih (fun m' hm' => h m' (List.mem_cons_of_mem _ hm'))

theorem replCrlf_of_no_cr {l : List Char} (h : '\r' ∉ l) : replCrlf l = l := by
  induction l with
  | nil => rfl
  | cons c rest ih =>
    have hc : c ≠ '\r' := fun hcc => h (by rw [hcc]; exact List.mem_cons_self _ _)
    have hr : '\r' ∉ rest := fun hm => h (List.mem_cons_of_mem _ hm)
    cases rest with
    | nil => rfl
    | cons d r2 =>
      show (if c = '\r' ∧ d = '\n' then '\n' :: replCrlf r2
        else c :: replCrlf (d :: r2)) = c :: d :: r2
      rw [if_neg (fun hcd => hc hcd.1), ih hr]

theorem map_cr_id {l : List Char} (h : '\r' ∉ l) :
    l.map (fun c => if c == '\r' then '\n' else c) = l := by
  induction l with
  | nil => rfl
  | cons c rest ih =>
    have hc : (c == '\r') = false := by
      refine beq_eq_false_iff_ne.mpr ?_
      intro hcc
      exact h (by rw [hcc]; exact List.mem_cons_self _ _)
    simp only [List.map_cons, hc, Bool.false_eq_true, if_false]
    rw [ih (fun hm => h (List.mem_cons_of_mem _ hm))]

theorem crlfNormL_of_no_cr {l : List Char} (h : '\r' ∉ l) : crlfNormL l = l := by
  unfold crlfNormL
  rw [replCrlf_of_no_cr h, map_cr_id h]

/-- C8 counterexample: `a\rb` contains no transcript marker, yet
`_extract_transcript_section` returns `a\nb`, not the original content: line
endings are normalized before the fail-open return. -/
theorem extract_no_marker_cx :
    hasMarker (crlfNormL "a\rb".data) = false ∧
    extractTranscriptSection "a\rb" ≠ "a\rb" ∧
    extractTranscriptSection "a\rb" = "a\nb" := by decide

/-- C8 (amended): when the content contains none of the transcript markers,
`_extract_transcript_section` returns the full content with line endings
normalized, which equals the original input exactly when the input contains
no carriage returns. -/
theorem extract_no_marker (s : String)
    (h : hasMarker (crlfNormL s.data) = false) :
    extractTranscriptSection s = ⟨crlfNormL s.data⟩ ∧
    ('\r' ∉ s.data → extractTranscriptSection s = s) := by
  have h1 : extractTranscriptSectionL s.data = crlfNormL s.data := by
    unfold extractTranscriptSectionL
    apply extractLoop_no_marker
    intro m hm
    cases hh : markerIdx m (crlfNormL s.data) with
    | none => rfl
    | some k =>
      exfalso
      have h2 : hasMarker (crlfNormL s.data) = true := by
        unfold hasMarker
        refine List.any_eq_true.mpr ⟨m, hm, ?_⟩
        rw [hh]
        rfl
      exact Bool.noConfusion (h2.symm.trans h)
  constructor
  · unfold extractTranscriptSection
    rw [h1]
  · intro hcr
    unfold extractTranscriptSection
    rw [h1, crlfNormL_of_no_cr hcr]

/-- Witness for the amended C8 at a concrete marker-free content. -/
theorem extract_no_marker_witness :
    hasMarker (crlfNormL "hello".data) = false ∧
    extractTranscriptSection "hello" = ⟨crlfNormL "hello".data⟩ ∧
    extractTranscriptSection "hello" = "hello" :=
  ⟨by decide, (extract_no_marker "hello" (by decide)).1,
   (extract_no_marker "hello" (by decide)).2 (by decide)⟩

/-! Field-preservation lemmas for the document-normalization steps. -/

theorem stepTitle_name (d : PyDoc) : (stepTitle d).name = d.name := by
  unfold stepTitle; split <;> rfl

theorem stepTitle_transcript (d : PyDoc) : (stepTitle d).transcript = d.transcript := by
  unfold stepTitle; split <;> rfl

theorem stepTitle_content (d : PyDoc) : (stepTitle d).content = d.content := by
  unfold stepTitle; split <;> rfl

theorem stepTitle_date (d : PyDoc) : (stepTitle d).date = d.date := by
  unfold stepTitle; split <;> rfl

theorem stepTitle_createdTime (d : PyDoc) : (stepTitle d).createdTime = d.createdTime := by
  unfold stepTitle; split <;> rfl

theorem stepTitle_participants (d : PyDoc) : (stepTitle d).participants = d.participants := by
  unfold stepTitle; split <;> rfl

theorem stepTranscript_title (d : PyDoc) : (stepTranscript d).title = d.title := by
  unfold stepTranscript; split <;> rfl

theorem stepTranscript_name (d : PyDoc) : (stepTranscript d).name = d.name := by
  unfold stepTranscript; split <;> rfl

theorem stepTranscript_content (d : PyDoc) : (stepTranscript d).content = d.content := by
  unfold stepTranscript; split <;> rfl

theorem stepTranscript_date (d : PyDoc) : (stepTranscript d).date = d.date := by
  unfold stepTranscript; split <;> rfl

theorem stepTranscript_createdTime (d : PyDoc) :
    (stepTranscript d).createdTime = d.createdTime := by
  unfold stepTranscript; split <;> rfl

theorem stepTranscript_participants (d : PyDoc) :
    (stepTranscript d).participants = d.participants := by
  unfold stepTranscript; split <;> rfl

theorem stepDate_title (now : PyDateTime) (d : PyDoc) :
    (stepDate now d).title = d.title := by
  unfold stepDate; repeat' split
  all_goals rfl

theorem stepDate_name (now : PyDateTime) (d : PyDoc) :
    (stepDate now d).name = d.name := by
  unfold stepDate; repeat' split
  all_goals rfl

theorem stepDate_transcript (now : PyDateTime) (d : PyDoc) :
    (stepDate now d).transcript = d.transcript := by
  unfold stepDate; repeat' split
  all_goals rfl

theorem stepDate_content (now : PyDateTime) (d : PyDoc) :
    (stepDate now d).content = d.content := by
  unfold stepDate; repeat' split
  all_goals rfl

theorem stepDate_createdTime (now : PyDateTime) (d : PyDoc) :
    (stepDate now d).createdTime = d.createdTime := by
  unfold stepDate; repeat' split
  all_goals rfl

theorem stepDate_participants (now : PyDateTime) (d : PyDoc) :
    (stepDate now d).participants = d.participants := by
  unfold stepDate; repeat' split
  all_goals rfl

theorem stepParticipants_title (d : PyDoc) : (stepParticipants d).title = d.title := by
  unfold stepParticipants; repeat' split
  all_goals (try simp only [])
  all_goals (repeat' split)
  all_goals rfl

theorem stepParticipants_name (d : PyDoc) : (stepParticipants d).name = d.name := by
  unfold stepParticipants; repeat' split
  all_goals (try simp only [])
  all_goals (repeat' split)
  all_goals rfl

theorem stepParticipants_transcript (d : PyDoc) :
    (stepParticipants d).transcript = d.transcript := by
  unfold stepParticipants; repeat' split
  all_goals (try simp only [])
  all_goals (repeat' split)
  all_goals rfl

theorem stepParticipants_content (d : PyDoc) :
    (stepParticipants d).content = d.content := by
  unfold stepParticipants; repeat' split
  all_goals (try simp only [])
  all_goals (repeat' split)
  all_goals rfl

theorem stepParticipants_date (d : PyDoc) : (stepParticipants d).date = d.date := by
  unfold stepParticipants; repeat' split
  all_goals (try simp only [])
  all_goals (repeat' split)
  all_goals rfl

theorem stepParticipants_createdTime (d : PyDoc) :
    (stepParticipants d).createdTime = d.createdTime := by
  unfold stepParticipants; repeat' split
  all_goals (try simp only [])
  all_goals (repeat' split)
  all_goals rfl

/-! Behavior lemmas for the document-normalization steps. -/

theorem normalizeDocument_guard (now : PyDateTime) {d : PyDoc}
    (h : (d.title.isSome && d.transcript.isSome &&
      truthyV (d.transcript.getD none)) = true) :
    normalizeDocument now d = d := by
  unfold normalizeDocument
  rw [if_pos h]

theorem normalizeDocument_steps (now : PyDateTime) {d : PyDoc}
    (h : (d.title.isSome && d.transcript.isSome &&
      truthyV (d.transcript.getD none)) = false) :
    normalizeDocument now d =
      stepParticipants (stepDate now (stepTranscript (stepTitle d))) := by
  unfold normalizeDocument
  rw [h]
  simp

theorem stepTitle_title_isSome (d : PyDoc) : (stepTitle d).title.isSome = true := by
  unfold stepTitle
  split
  · rfl
  next h =>
    cases ht : d.title with
    | none => exact absurd ht h
    | some v => rfl

theorem stepTitle_id_of_isSome {d : PyDoc} (h : d.title.isSome = true) :
    stepTitle d = d := by
  unfold stepTitle
  rw [if_neg]
  intro hc
  rw [hc] at h
  exact Bool.noConfusion h

theorem truthy_isSome {o : Option (Option String)}
    (h : truthyV (o.getD none) = true) : o.isSome = true := by
  cases o with
  | none => exact absurd h (by decide)
  | some v => rfl

theorem stepTranscript_post (d : PyDoc) :
    (stepTranscript d = d ∧ truthyV (d.transcript.getD none) = true) ∨
    stepTranscript d = { d with transcript := some (some (tFromContent d.content)) } := by
  unfold stepTranscript
  split
  next hcond => exact Or.inr rfl
  next hcond =>
    refine Or.inl ⟨rfl, ?_⟩
    have h0 : (decide (d.transcript = none) ||
        !truthyV (d.transcript.getD none)) = false := by
      simpa using hcond
    simpa using (Bool.or_eq_false_iff.mp h0).2

theorem stepTranscript_of_not_truthy {d : PyDoc}
    (h : truthyV (d.transcript.getD none) = false) :
    stepTranscript d = { d with transcript := some (some (tFromContent d.content)) } := by
  unfold stepTranscript
  rw [if_pos]
  simp [h]

theorem set_transcript_self {d : PyDoc} {v : Option (Option String)}
    (h : d.transcript = v) : { d with transcript := v } = d := by
  cases d
  simp_all

theorem stepDate_post (now : PyDateTime) (d : PyDoc) :
    (∃ t, (stepDate now d).date = some (some t)) ∨
    (stepDate now d = d ∧ dateFromCT now d.createdTime = none) ∨
    (stepDate now d = d ∧
      (decide (d.date = none) || decide (d.date = some none)) = false) := by
  unfold stepDate
  split
  next hc =>
    split
    next t hf => exact Or.inl ⟨t, rfl⟩
    next hf => exact Or.inr (Or.inl ⟨rfl, hf⟩)
  next hc =>
    refine Or.inr (Or.inr ⟨rfl, ?_⟩)
    simpa using Bool.of_not_eq_true hc

theorem stepDate_id_of_set {now : PyDateTime} {d : PyDoc} {t : PyDateTime}
    (h : d.date = some (some t)) : stepDate now d = d := by
  unfold stepDate
  rw [if_neg]
  simp [h]

theorem stepDate_id_of_fct_none {now : PyDateTime} {d : PyDoc}
    (h : dateFromCT now d.createdTime = none) : stepDate now d = d := by
  unfold stepDate
  split
  · rw [h]
  · rfl

theorem stepDate_id_of_not_cond {now : PyDateTime} {d : PyDoc}
    (h : (decide (d.date = none) || decide (d.date = some none)) = false) :
    stepDate now d = d := by
  unfold stepDate
  rw [if_neg]
  simp at h
  simp [h.1, h.2]

theorem stepParticipants_post (d : PyDoc) :
    stepParticipants d = d ∨
    ∃ ps, ps ≠ [] ∧ stepParticipants d = { d with participants := some ps } := by
  unfold stepParticipants
  split
  next hc =>
    simp only []
    split
    · exact Or.inl rfl
    next htr =>
      split
      next hps => exact Or.inl rfl
      next hps =>
        refine Or.inr ⟨_, ?_, rfl⟩
        simpa [List.isEmpty_iff] using hps
  next hc => exact Or.inl rfl

theorem stepParticipants_id_of_nonempty {d : PyDoc} {ps : List String}
    (h : d.participants = some ps) (hne : ps ≠ []) : stepParticipants d = d := by
  unfold stepParticipants
  rw [if_neg]
  simp [h, hne]

theorem dateFromCT_str (now : PyDateTime) (s : String) :
    dateFromCT now (some (.ctStr s)) =
      if s.isEmpty then none else some ((parseCreatedTime s.data).getD now) := rfl

/-! Claim theorems C3, C10, C4 for `_normalize_document`. -/

/-- C3: a Drive-export-shaped document (a `name` field, no
`title`/`transcript`/`date`, `content` equal to the two lines
`📖 Transcript` and `[00:00:01] Eve: hi`, and `createdTime` equal to
`2025-01-01T00:00:00.000Z`) normalizes to a document whose title is the
`name` value, whose transcript is exactly `[00:00:01] Eve: hi`, and whose
date is the datetime 2025-01-01T00:00:00+00:00. -/
theorem normalize_drive_document (nm : String) (now : PyDateTime) :
    (normalizeDocument now (docC3 nm)).title = some (some nm) ∧
    (normalizeDocument now (docC3 nm)).transcript =
      some (some "[00:00:01] Eve: hi") ∧
    (normalizeDocument now (docC3 nm)).date =
      some (some ⟨2025, 1, 1, 0, 0, 0, some 0⟩) := by
  have hSteps : normalizeDocument now (docC3 nm) =
      stepParticipants (stepDate now (stepTranscript (stepTitle (docC3 nm)))) :=
    normalizeDocument_steps now rfl
  refine ⟨?_, ?_, ?_⟩
  · rw [hSteps, stepParticipants_title, stepDate_title, stepTranscript_title]
    unfold stepTitle
    rw [if_pos (show (docC3 nm).title = none from rfl)]
    rfl
  · rw [hSteps, stepParticipants_transcript, stepDate_transcript]
    rw [stepTranscript_of_not_truthy (by rw [stepTitle_transcript]; rfl)]
    show some (some (tFromContent (stepTitle (docC3 nm)).content)) = _
    rw [stepTitle_content,
      show (docC3 nm).content =
        some (some "📖 Transcript\n[00:00:01] Eve: hi") from rfl]
    decide
  · rw [hSteps, stepParticipants_date]
    have hfct : dateFromCT now (stepTranscript (stepTitle (docC3 nm))).createdTime =
        some ⟨2025, 1, 1, 0, 0, 0, some 0⟩ := by
      rw [stepTranscript_createdTime, stepTitle_createdTime,
        show (docC3 nm).createdTime =
          some (.ctStr "2025-01-01T00:00:00.000Z") from rfl,
        dateFromCT_str, if_neg (by decide),
        show parseCreatedTime "2025-01-01T00:00:00.000Z".data =
          some ⟨2025, 1, 1, 0, 0, 0, some 0⟩ from by decide]
      rfl
    unfold stepDate
    rw [if_pos (by rw [stepTranscript_date, stepTitle_date]; rfl), hfct]

/-- C10: when the input document contains a `title` key, `_normalize_document`
returns a document with exactly that title value; the `name` and
`"Untitled Meeting"` fallbacks apply only when the key is absent, not when
its value is empty or null. -/
theorem normalize_keeps_title (now : PyDateTime) (d : PyDoc) (v : Option String)
    (h : d.title = some v) : (normalizeDocument now d).title = some v := by
  unfold normalizeDocument
  split
  · exact h
  · rw [stepParticipants_title, stepDate_title, stepTranscript_title]
    unfold stepTitle
    rw [if_neg (by rw [h]; simp)]
    exact h

/-- Witness for C10 at a concrete document whose title is the empty string. -/
theorem normalize_keeps_title_witness :
    ({ title := some (some "") } : PyDoc).title = some (some "") ∧
    (normalizeDocument pyDatetimeMin { title := some (some "") }).title =
      some (some "") :=
  ⟨rfl, normalize_keeps_title pyDatetimeMin _ _ rfl⟩

/-- C4: `_normalize_document` is idempotent: normalizing a normalized
document changes nothing (with the `datetime.now()` of the failure fallback
modelled as an explicit parameter). -/
theorem normalize_document_idempotent (now : PyDateTime) (d : PyDoc) :
    normalizeDocument now (normalizeDocument now d) = normalizeDocument now d := by
  cases hg : (d.title.isSome && d.transcript.isSome &&
      truthyV (d.transcript.getD none)) with
  | true =>
    have h1 := normalizeDocument_guard now hg
    rw [h1]
    exact h1
  | false =>
    have hN := normalizeDocument_steps now hg
    set d1 := stepTitle d with hd1
    set d2 := stepTranscript d1 with hd2
    set d3 := stepDate now d2 with hd3
    set n1 := stepParticipants d3 with hn1
    rw [hN]
    have hTitle : n1.title.isSome = true := by
      rw [hn1, stepParticipants_title, hd3, stepDate_title, hd2,
        stepTranscript_title, hd1]
      exact stepTitle_title_isSome d
    have hContent : n1.content = d1.content := by
      rw [hn1, stepParticipants_content, hd3, stepDate_content, hd2,
        stepTranscript_content]
    have hCreated : n1.createdTime = d2.createdTime := by
      rw [hn1, stepParticipants_createdTime, hd3, stepDate_createdTime]
    have hDateEq : n1.date = d3.date := by
      rw [hn1, stepParticipants_date]
    have hTrEq : n1.transcript = d2.transcript := by
      rw [hn1, stepParticipants_transcript, hd3, stepDate_transcript]
    by_cases hg2 : (n1.title.isSome && n1.transcript.isSome &&
        truthyV (n1.transcript.getD none)) = true
    · exact normalizeDocument_guard now hg2
    · have hg2f : (n1.title.isSome && n1.transcript.isSome &&
          truthyV (n1.transcript.getD none)) = false := by
        simpa using hg2
      rw [normalizeDocument_steps now hg2f]
      rcases stepTranscript_post d1 with ⟨hid, htr⟩ | hset
      · -- the transcript was already truthy: then the guard on `n1` holds
        exfalso
        have hTrN : n1.transcript = d1.transcript := by rw [hTrEq, hd2, hid]
        have htrN : truthyV (n1.transcript.getD none) = true := by rw [hTrN]; exact htr
        have hSomeN : n1.transcript.isSome = true := truthy_isSome htrN
        rw [hTitle, hSomeN, htrN] at hg2
        exact hg2 rfl
      · have hT1 : stepTitle n1 = n1 := stepTitle_id_of_isSome hTitle
        have hTrN : n1.transcript = some (some (tFromContent d1.content)) := by
          rw [hTrEq, hd2, hset]
        have hSomeN : n1.transcript.isSome = true := by rw [hTrN]; rfl
        have htruthyF : truthyV (n1.transcript.getD none) = false := by
          cases htv : truthyV (n1.transcript.getD none) with
          | false => rfl
          | true =>
            rw [hTitle, hSomeN, htv] at hg2
            exact absurd rfl hg2
        have hT2 : stepTranscript n1 = n1 := by
          rw [stepTranscript_of_not_truthy htruthyF]
          exact set_transcript_self (by rw [hTrN, hContent])
        have hT3 : stepDate now n1 = n1 := by
          rcases stepDate_post now d2 with ⟨t, hdt⟩ | ⟨hid3, hfct⟩ | ⟨hid3, hcond⟩
          · exact stepDate_id_of_set (by rw [hDateEq, hd3]; exact hdt)
          · exact stepDate_id_of_fct_none (by rw [hCreated]; exact hfct)
          · refine stepDate_id_of_not_cond ?_
            rw [hDateEq, hd3, hid3]
            exact hcond
        have hT4 : stepParticipants n1 = n1 := by
          rcases stepParticipants_post d3 with hid4 | ⟨ps, hne, hset4⟩
          · have : n1 = d3 := by rw [hn1, hid4]
            rw [this, hid4]
          · refine stepParticipants_id_of_nonempty ?_ hne
            rw [hn1, hset4]
        rw [hT1, hT2, hT3, hT4]

/-! Claim C9: the processing order of `analyze_aggregated_meetings`. -/

theorem natListLe_cons (x y : Nat) (xs ys : List Nat) :
    natListLe (x :: xs) (y :: ys) =
      if x < y then true else if y < x then false else natListLe xs ys := rfl

theorem natListLe_of_forall2 {xs ys : List Nat}
    (h : List.Forall₂ (· ≤ ·) xs ys) : natListLe xs ys = true := by
  induction h with
  | nil => rfl
  | @cons x y xs ys hxy hall ih =>
    rw [natListLe_cons]
    by_cases h1 : x < y
    · rw [if_pos h1]
    · rw [if_neg h1, if_neg (by omega)]
      exact ih

theorem natListLe_total : ∀ xs ys : List Nat,
    natListLe xs ys = true ∨ natListLe ys xs = true := by
  intro xs
  induction xs with
  | nil => intro ys; exact Or.inl rfl
  | cons x xs ih =>
    intro ys
    cases ys with
    | nil => exact Or.inr rfl
    | cons y ys =>
      unfold natListLe
      rcases Nat.lt_trichotomy x y with h | h | h
      · left; simp [h]
      · subst h
        rcases ih ys with h2 | h2
        · left; simp [h2]
        · right; simp [h2]
      · right; simp [h]

theorem natListLe_trans : ∀ {xs ys zs : List Nat},
    natListLe xs ys = true → natListLe ys zs = true → natListLe xs zs = true := by
  intro xs
  induction xs with
  | nil => intro ys zs _ _; rfl
  | cons x xs ih =>
    intro ys zs h1 h2
    cases ys with
    | nil => exact absurd h1 (by simp [natListLe])
    | cons y ys =>
      cases zs with
      | nil => exact absurd h2 (by simp [natListLe])
      | cons z zs =>
        unfold natListLe at h1 h2 ⊢
        rcases Nat.lt_trichotomy x z with h | h | h
        · simp [h]
        · subst h
          rw [if_neg (by omega), if_neg (by omega)]
          -- from x ≤ y ≤ x we get x = y and recurse
          rcases Nat.lt_trichotomy x y with hxy | hxy | hxy
          · rcases Nat.lt_trichotomy y x with hyz | hyz | hyz <;>
              simp [hxy, hyz] at h1 h2 <;> omega
          · subst hxy
            rw [if_neg (by omega), if_neg (by omega)] at h1 h2
            exact ih h1 h2
          · rw [if_neg (by omega), if_pos hxy] at h1
            exact absurd h1 (by simp)
        · exfalso
          rcases Nat.lt_trichotomy x y with hxy | hxy | hxy
          · rcases Nat.lt_trichotomy y z with hyz | hyz | hyz
            · omega
            · omega
            · rw [if_neg (by omega), if_pos hyz] at h2
              exact absurd h2 (by simp)
          · subst hxy
            rw [if_neg (by omega), if_pos (by omega)] at h2
            exact absurd h2 (by simp)
          · rw [if_neg (by omega), if_pos hxy] at h1
            exact absurd h1 (by simp)

instance : IsTotal PyDoc aggLe :=
  ⟨fun a b => natListLe_total (dtFields (sortKeyD a)) (dtFields (sortKeyD b))⟩

instance : IsTrans PyDoc aggLe :=
  ⟨fun _ _ _ hab hbc => natListLe_trans hab hbc⟩

/-- C9 counterexample: with a first document explicitly dated `datetime.min`
and a second document with no date at all, the stable sort keeps the dated
document first, so a missing-date document does not sort strictly before all
dated documents. -/
theorem aggregation_order_cx :
    ({ date := some (some pyDatetimeMin) } : PyDoc).date ≠ none ∧
    ({} : PyDoc).date = none ∧
    sortedMeetings [{ date := some (some pyDatetimeMin) }, {}] =
      [{ date := some (some pyDatetimeMin) }, {}] := by decide

/-- C9 (amended): `analyze_aggregated_meetings` processes its documents in
ascending order of the key `x.get('date', datetime.min)` under a stable
sort (a permutation of the input, sorted by the key); a document with a
missing date is keyed exactly `datetime.min`, which is less than or equal to
every valid datetime — so it never sorts after a document with a strictly
later date, though it can stay after an equal-keyed dated document. -/
theorem aggregation_order_sorted (ms : List PyDoc)
    (_hnv : ∀ d ∈ ms, naiveDateDoc d) :
    List.Sorted aggLe (sortedMeetings ms) ∧
    List.Perm (sortedMeetings ms) ms ∧
    (∀ d ∈ ms, d.date = none → sortKeyD d = pyDatetimeMin) ∧
    (∀ t : PyDateTime, 1 ≤ t.year → 1 ≤ t.month → 1 ≤ t.day →
      pyDtLeB pyDatetimeMin t = true) := by
  refine ⟨List.sorted_insertionSort aggLe ms, List.perm_insertionSort aggLe ms,
    ?_, ?_⟩
  · intro d _ hd
    unfold sortKeyD
    rw [hd]
  · intro t hy hm hd
    show natListLe [1, 1, 1, 0, 0, 0]
      [t.year, t.month, t.day, t.hour, t.minute, t.second] = true
    exact natListLe_of_forall2
      (.cons hy (.cons hm (.cons hd (.cons (Nat.zero_le _)
        (.cons (Nat.zero_le _) (.cons (Nat.zero_le _) .nil))))))

/-- Witness for the amended C9 at a concrete two-document list. -/
theorem aggregation_order_sorted_witness :
    List.Sorted aggLe (sortedMeetings [{ date := some (some pyDatetimeMin) }, {}]) ∧
    List.Perm (sortedMeetings [{ date := some (some pyDatetimeMin) }, {}])
      [{ date := some (some pyDatetimeMin) }, {}] := by
  have hnv : ∀ d ∈ ([{ date := some (some pyDatetimeMin) }, {}] : List PyDoc),
      naiveDateDoc d := by
    intro d hd
    rcases List.mem_cons.mp hd with rfl | hd
    · show pyDatetimeMin.tzOffsetMinutes = none
      rfl
    · rcases List.mem_singleton.mp hd with rfl
      trivial
  have h := aggregation_order_sorted
    [{ date := some (some pyDatetimeMin) }, {}] hnv
  exact ⟨h.1, h.2.1⟩

end MPA
